import Mathlib

/-!
# menv: environment resolution and merge pipeline

A shallow embedding of the core of `menv` (`internal/env/loader.go`,
`internal/config/detect.go`, `internal/config/config.go`, `internal/config/types.go`)
together with theorems about file precedence, overrides, the env-file line
parser, the process-environment builder and project detection.

Conventions of the embedding.

* A Go `string` is a `Str`, a list of Unicode characters (well-formed UTF-8 text).
  The only bytes the code inspects individually are ASCII (`=`, `#`, the two quote
  characters), and an ASCII byte of well-formed UTF-8 is always a whole character,
  so indexing by character agrees with Go's indexing by byte at those places.
* A Go `map[string]T` is a `GoMap T`: a list of entries with pairwise distinct
  keys.  The order of the list is the order in which a `range` loop visits the
  map; Go leaves that order unspecified, so theorems quantify over every `GoMap`.
* Everything the code asks of the operating system and of Go's `os`,
  `path/filepath` and `bufio` packages is a field of the parameter `OS`.
* A Go result pair `(map, error)` is a pair of options: `none` is `nil`.
-/

namespace Menv

/-- A Go string. -/
abbrev Str := List Char

/-! ## Go maps -/

/-- A Go `map[string]α`: entries with pairwise distinct keys, listed in the
order a `range` loop visits them. -/
structure GoMap (α : Type) where
  entries : List (Str × α)
  nodup : (entries.map Prod.fst).Nodup

/-- The value stored under `k` in a list of entries, if any. -/
def lookupEntries {α : Type} : List (Str × α) → Str → Option α
  | [], _ => none
  | (k', v) :: t, k => if k' = k then some v else lookupEntries t k

/-- The entries after `m[k] = v`: the entry of `k` is replaced in place, or a new
entry is added. -/
def setEntries {α : Type} : List (Str × α) → Str → α → List (Str × α)
  | [], k, v => [(k, v)]
  | (k', v') :: t, k, v => if k' = k then (k, v) :: t else (k', v') :: setEntries t k v

namespace GoMap

/-- The map `make(map[string]α)`. -/
def empty {α : Type} : GoMap α := ⟨[], List.nodup_nil⟩

/-- The lookup `m[k]` with its presence flag: `none` when `k` is not a key. -/
def get {α : Type} (m : GoMap α) (k : Str) : Option α := lookupEntries m.entries k

/-- The assignment `m[k] = v`. -/
def set {α : Type} (m : GoMap α) (k : Str) (v : α) : GoMap α :=
  ⟨setEntries m.entries k v, by
    have sub : ∀ (l : List (Str × α)) (x : Str),
        x ∈ (setEntries l k v).map Prod.fst → x = k ∨ x ∈ l.map Prod.fst := by
      intro l x
      induction l with
      | nil => intro hx; simpa [setEntries] using hx
      | cons e t ih =>
        obtain ⟨k', v'⟩ := e
        intro hx
        by_cases h : k' = k
        · simp only [setEntries, h, if_true, List.map_cons, List.mem_cons] at hx ⊢
          tauto
        · simp only [setEntries, h, if_false, List.map_cons, List.mem_cons] at hx ⊢
          rcases hx with hx | hx
          · exact Or.inr (Or.inl hx)
          · rcases ih hx with h1 | h1
            · exact Or.inl h1
            · exact Or.inr (Or.inr h1)
    have nd : ∀ l : List (Str × α),
        (l.map Prod.fst).Nodup → ((setEntries l k v).map Prod.fst).Nodup := by
      intro l
      induction l with
      | nil => intro _; simp [setEntries]
      | cons e t ih =>
        obtain ⟨k', v'⟩ := e
        intro hl
        simp only [List.map_cons, List.nodup_cons] at hl
        by_cases h : k' = k
        · simp only [setEntries, h, if_true, List.map_cons, List.nodup_cons]
          exact ⟨h ▸ hl.1, hl.2⟩
        · simp only [setEntries, h, if_false, List.map_cons, List.nodup_cons]
          refine ⟨fun hmem => ?_, ih hl.2⟩
          rcases sub t k' hmem with h1 | h1
          · exact h h1
          · exact hl.1 h1
    exact nd m.entries m.nodup⟩

/-- The loop `for k, v := range src { dst[k] = v }`. -/
def assignAll {α : Type} (dst : GoMap α) (src : List (Str × α)) : GoMap α :=
  src.foldl (fun acc kv => acc.set kv.1 kv.2) dst

end GoMap

/-! ## The `strings` functions the code calls -/

/-- Go's `unicode.IsSpace`: the characters with the Unicode White_Space property. -/
def IsSpace (c : Char) : Bool :=
  let n := c.toNat
  (9 ≤ n && n ≤ 13) || n == 32 || n == 0x85 || n == 0xA0 || n == 0x1680 ||
    (0x2000 ≤ n && n ≤ 0x200A) || n == 0x2028 || n == 0x2029 || n == 0x202F ||
    n == 0x205F || n == 0x3000

/-- Go's `strings.TrimSpace`: drop the leading and the trailing white space. -/
def TrimSpace (s : Str) : Str := (s.dropWhile IsSpace).rdropWhile IsSpace

/-- Go's `strings.HasPrefix`. -/
def HasPrefix (s pre : Str) : Bool := pre.isPrefixOf s

/-- Go's `strings.TrimPrefix`. -/
def TrimPrefix (s pre : Str) : Str := if HasPrefix s pre then s.drop pre.length else s

/-- Go's `strings.SplitN(s, sep, 2)` for a one-character separator: the text before
and after the first `sep`, or `s` alone when it has no `sep`. -/
def SplitN2 (s : Str) (sep : Char) : List Str :=
  match s.dropWhile (fun c => c != sep) with
  | [] => [s]
  | _ :: rest => [s.takeWhile (fun c => c != sep), rest]

/-- Go's slice expression `s[i:j]`. -/
def slice (s : Str) (i j : Nat) : Str := (s.take j).drop i

/-! ## Configuration records (`internal/config/types.go`) -/

/-- An environment of a project: `Env`. -/
structure Env where
  Files : List Str
  Overrides : GoMap Str

/-- A project entry: `Project`. -/
structure Project where
  Path : Str
  Command : Str
  Envs : GoMap Env

/-- The top-level configuration: `Config`. -/
structure Config where
  Projects : GoMap Project

/-! ## The operating system -/

/-- What scanning an opened file with `bufio.Scanner` gives: the lines `Scan`
yields, in order, and the value of `scanner.Err()` afterwards. -/
structure Scanned where
  lines : List Str
  err : Option Str

/-- The operating system and library calls of the code. -/
structure OS where
  /-- Go's `os.Open` followed by a `bufio.Scanner` over the file; `error` is the
  error of `os.Open`. -/
  Open : Str → Except Str Scanned
  /-- Go's `filepath.IsAbs`. -/
  IsAbs : Str → Bool
  /-- Go's `filepath.Join` of two elements. -/
  Join : Str → Str → Str
  /-- Go's `os.Environ()`. -/
  Environ : List Str
  /-- Go's `os.Getwd()`, `none` when it fails. -/
  Getwd : Option Str
  /-- Go's `os.UserHomeDir()`, `none` when it fails. -/
  UserHomeDir : Option Str
  /-- Go's `filepath.Abs`, `none` when it fails. -/
  Abs : Str → Option Str
  /-- Go's `filepath.EvalSymlinks`, `none` when it fails. -/
  EvalSymlinks : Str → Option Str
  /-- Go's `filepath.Separator`. -/
  Separator : Char

/-! ## The env-file parser (`internal/env/loader.go`, `parseEnvFile`) -/

/-- The quote removal of `parseEnvFile` (the `if len(value) >= 2` block). -/
def stripQuotes (value : Str) : Str :=
  if value.length ≥ 2 then
    if (value.get? 0 = some '"' ∧ value.get? (value.length - 1) = some '"') ∨
        (value.get? 0 = some '\'' ∧ value.get? (value.length - 1) = some '\'') then
      slice value 1 (value.length - 1)
    else value
  else value

/-- The first part of the body of the scanning loop of `parseEnvFile` for one line of
text, up to the trimmed key and the trimmed raw value (`key` and `value` before the
quote removal), or `none` when the body reaches a `continue`. -/
def splitLine (text : Str) : Option (Str × Str) :=
  let line := TrimSpace text
  if line = [] ∨ HasPrefix line "#".toList then none
  else
    let line :=
      if HasPrefix line "export ".toList then TrimSpace (TrimPrefix line "export ".toList)
      else line
    match SplitN2 line '=' with
    | [p0, p1] => some (TrimSpace p0, TrimSpace p1)
    | _ => none

/-- The body of the scanning loop of `parseEnvFile` for one line of text: the key and
the value it stores with `result[key] = value`, or `none` when it reaches a `continue`. -/
def parseLine (text : Str) : Option (Str × Str) :=
  match splitLine text with
  | some (key, value) => some (key, stripQuotes value)
  | none => none

/-- One turn of the scanning loop of `parseEnvFile`: the map `result` after the line
`text`. -/
def storeLine (result : GoMap Str) (text : Str) : GoMap Str :=
  match parseLine text with
  | some (key, value) => result.set key value
  | none => result

/-- The scanning loop of `parseEnvFile` over the lines of a file. -/
def parseLines (lines : List Str) : GoMap Str :=
  lines.foldl storeLine GoMap.empty

/-- The function `parseEnvFile`: `(nil, err)` when the file cannot be opened,
otherwise the parsed map together with `scanner.Err()`. -/
def parseEnvFile (os : OS) (path : Str) : Option (GoMap Str) × Option Str :=
  match os.Open path with
  | .error err => (none, some err)
  | .ok sc => (some (parseLines sc.lines), sc.err)

/-! ## The environment loader (`internal/env/loader.go`, `LoadEnv`) -/

/-- The path `LoadEnv` opens for the file reference `f`: `f` itself when it is
absolute, otherwise `f` joined onto the project's path. -/
def resolveFile (os : OS) (project : Project) (f : Str) : Str :=
  if !os.IsAbs f then os.Join project.Path f else f

/-- The error `fmt.Errorf("failed to load env file %s: %w", filePath, err)`. -/
def loadError (filePath err : Str) : Str :=
  "failed to load env file ".toList ++ filePath ++ ": ".toList ++ err

/-- The loop of `LoadEnv` over the file references still to load, `result` being
the accumulator.  The first component is the list of the paths handed to
`parseEnvFile`, in order; the second is the accumulator after the loop, or the
error of the early return. -/
def loadFiles (os : OS) (project : Project) :
    List Str → GoMap Str → List Str × Except Str (GoMap Str)
  | [], result => ([], .ok result)
  | f :: rest, result =>
    let filePath := resolveFile os project f
    match parseEnvFile os filePath with
    | (_, some err) => ([filePath], .error (loadError filePath err))
    | (vars, none) =>
      let merged := result.assignAll (match vars with | some m => m.entries | none => [])
      let r := loadFiles os project rest merged
      (filePath :: r.1, r.2)

/-- The function `LoadEnv` together with the list of the paths it opened. -/
def LoadEnvTraced (os : OS) (project : Project) (envCfg : Env) :
    List Str × (Option (GoMap Str) × Option Str) :=
  match loadFiles os project envCfg.Files GoMap.empty with
  | (opened, .error err) => (opened, (none, some err))
  | (opened, .ok result) => (opened, (some (result.assignAll envCfg.Overrides.entries), none))

/-- The function `LoadEnv`: the merged map and a `nil` error, or `nil` and the error. -/
def LoadEnv (os : OS) (project : Project) (envCfg : Env) : Option (GoMap Str) × Option Str :=
  (LoadEnvTraced os project envCfg).2

/-- The file reference `f` of the project loads successfully as the map `m`:
`parseEnvFile` returns `m` and a `nil` error for its resolved path. -/
def Loads (os : OS) (project : Project) (f : Str) (m : GoMap Str) : Prop :=
  parseEnvFile os (resolveFile os project f) = (some m, none)

/-- The file reference `f` of the project cannot be loaded: `parseEnvFile` returns the
error `err` for its resolved path. -/
def FailsWith (os : OS) (project : Project) (f : Str) (err : Str) : Prop :=
  (parseEnvFile os (resolveFile os project f)).2 = some err

/-! ## The environment builder (`internal/env/loader.go`, `BuildEnv`) -/

/-- The key of an entry of the process environment: the text before its first `=`, when it
has one.  This is the key `BuildEnv` stores the entry under, and the key Go's
`syscall.copyenv` reads off it. -/
def entryKey (e : Str) : Option Str :=
  match SplitN2 e '=' with
  | [k, _] => some k
  | _ => none

/-- The inherited environment lists each key once: no two entries of `os.Environ()` have
the same key.  On POSIX systems Go guarantees this of the list `os.Environ()` returns: on
first use `syscall.copyenv` indexes the environment by key, keeps the first entry of each
key and clears every later one, and `syscall.Environ` leaves the cleared entries out. -/
def EnvironDistinct (os : OS) : Prop := (os.Environ.filterMap entryKey).Nodup

instance (os : OS) : Decidable (EnvironDistinct os) :=
  inferInstanceAs (Decidable (os.Environ.filterMap entryKey).Nodup)

/-- The body of the first loop of `BuildEnv` for the inherited entry `e`. -/
def recordEntry (existing : GoMap Str) (e : Str) : GoMap Str :=
  match SplitN2 e '=' with
  | [p0, p1] => existing.set p0 p1
  | _ => existing

/-- The map `existing` of `BuildEnv` after its first loop, over `os.Environ()`. -/
def inheritedEnv (os : OS) : GoMap Str :=
  os.Environ.foldl recordEntry GoMap.empty

/-- The map `existing` of `BuildEnv` after its second loop, over `loaded`. -/
def mergedEnv (os : OS) (loaded : GoMap Str) : GoMap Str :=
  (inheritedEnv os).assignAll loaded.entries

/-- The function `BuildEnv`: one `k+"="+v` string for each entry of `existing`. -/
def BuildEnv (os : OS) (loaded : GoMap Str) : List Str :=
  (mergedEnv os loaded).entries.map (fun kv => kv.1 ++ "=".toList ++ kv.2)

/-! ## Path normalisation and project detection (`internal/config`) -/

/-- The function `NormalizePath` of `config.go`. -/
def NormalizePath (os : OS) (p : Str) : Str :=
  if p = [] then []
  else
    let p :=
      if p = "~".toList ∨ HasPrefix p "~/".toList ∨ HasPrefix p "~\\".toList then
        match os.UserHomeDir with
        | some home => if p = "~".toList then home else os.Join home (p.drop 2)
        | none => p
      else p
    match os.Abs p with
    | none => p
    | some abs =>
      match os.EvalSymlinks abs with
      | none => abs
      | some resolved => resolved

/-- The loop of `DetectProject` over the projects still to visit, `cwd` being the
normalised working directory. -/
def detectLoop (os : OS) (cwd : Str) : List (Str × Project) → Str × Option Project
  | [] => ([], none)
  | (name, p) :: rest =>
    let projectPath := NormalizePath os p.Path
    if projectPath = [] then detectLoop os cwd rest
    else if cwd = projectPath ∨ HasPrefix cwd (projectPath ++ [os.Separator]) then
      (name, some p)
    else detectLoop os cwd rest

/-- The function `DetectProject`: the name and the project of the first match, or the
empty name and `nil`. -/
def DetectProject (os : OS) (cfg : Config) : Str × Option Project :=
  match os.Getwd with
  | none => ([], none)
  | some cwd => detectLoop os (NormalizePath os cwd) cfg.Projects.entries

/-! ## The command layer (`cmd/root.go`, `cmd/envget.go`) -/

/-- The errors the command layer returns. -/
inductive CmdError where
  /-- The error `project %q not found` for the given name. -/
  | projectNotFound (name : Str)
  /-- The error `could not detect project from current directory; specify a project name or
  cd into a project path`. -/
  | notDetected
  /-- The error `environment %q not found in project %q`. -/
  | envNotFound (envName projectName : Str)
  /-- The run-time panic of dereferencing a `nil` project pointer. -/
  | nilDereference

/-- The function `resolveProject` of `root.go`: the project called `name`, or, for the
empty name, the project detected from the working directory. -/
def resolveProject (os : OS) (cfg : Config) (name : Str) : Except CmdError (Str × Project) :=
  if name ≠ [] then
    match cfg.Projects.get name with
    | none => .error (.projectNotFound name)
    | some p => .ok (name, p)
  else
    match DetectProject os cfg with
    | (detected, p) =>
      if detected = [] then .error .notDetected
      else
        match p with
        | some q => .ok (detected, q)
        | none => .error .nilDereference

/-- The variables `projectName`, `project`, `envName` and `keys` of `envGetCmd.RunE`. -/
structure EnvGetTarget where
  projectName : Str
  project : Project
  envName : Str
  keys : List Str

/-- The argument handling of `envGetCmd.RunE`, from `_, isProject := cfg.Projects[args[0]]`
to the end of the `if`/`else`.  The arguments are `arg0 :: rest`: `cobra.MinimumNArgs(1)`
lets the function run only with at least one. -/
def envGetTarget (os : OS) (cfg : Config) (arg0 : Str) (rest : List Str) :
    Except CmdError EnvGetTarget :=
  let isProject := (cfg.Projects.get arg0).isSome
  match isProject, rest with
  | true, arg1 :: more =>
    match resolveProject os cfg arg0 with
    | .error err => .error err
    | .ok (_, project) => .ok ⟨arg0, project, arg1, more⟩
  | _, _ =>
    match resolveProject os cfg [] with
    | .error err => .error err
    | .ok (projectName, project) => .ok ⟨projectName, project, arg0, rest⟩

/-- The environment lookup of `envGetCmd.RunE`: `envCfg, exists := project.Envs[envName]`. -/
def envGetEnv (t : EnvGetTarget) : Except CmdError Env :=
  match t.project.Envs.get t.envName with
  | some envCfg => .ok envCfg
  | none => .error (.envNotFound t.envName t.projectName)

/-! ## Vocabulary of the specification -/

/-- The match test of `DetectProject` for the normalised working directory `cwd`: the
project's normalised root is non-empty, and `cwd` equals it or begins with it followed by
the path separator. -/
def Matches (os : OS) (cwd : Str) (p : Project) : Prop :=
  NormalizePath os p.Path ≠ [] ∧
    (cwd = NormalizePath os p.Path ∨ NormalizePath os p.Path ++ [os.Separator] <+: cwd)

/-- Some configured project matches the working directory. -/
def SomeProjectMatches (os : OS) (cfg : Config) : Prop :=
  ∃ cwd : Str, os.Getwd = some cwd ∧
    ∃ n p, (n, p) ∈ cfg.Projects.entries ∧ Matches os (NormalizePath os cwd) p


/-- Every character of `s` is white space. -/
def AllSpace (s : Str) : Prop := ∀ c ∈ s, IsSpace c = true

/-- The string `s` has no surrounding white space: neither its first nor its last
character is white space. -/
def NoSurroundingSpace (s : Str) : Prop :=
  (∀ c ∈ s.head?, IsSpace c = false) ∧ (∀ c ∈ s.getLast?, IsSpace c = false)

instance (s : Str) : Decidable (AllSpace s) :=
  inferInstanceAs (Decidable (∀ c ∈ s, IsSpace c = true))

instance (s : Str) : Decidable (NoSurroundingSpace s) :=
  inferInstanceAs (Decidable
    ((∀ c ∈ s.head?, IsSpace c = false) ∧ (∀ c ∈ s.getLast?, IsSpace c = false)))

/-- The string `s` has at least 2 characters and its first and last characters are both
the double quote or both the single quote. -/
def Quoted (s : Str) : Prop :=
  2 ≤ s.length ∧
    ((s.head? = some '"' ∧ s.getLast? = some '"') ∨
      (s.head? = some '\'' ∧ s.getLast? = some '\''))

instance (s : Str) : Decidable (Quoted s) :=
  inferInstanceAs (Decidable
    (2 ≤ s.length ∧
      ((s.head? = some '"' ∧ s.getLast? = some '"') ∨
        (s.head? = some '\'' ∧ s.getLast? = some '\''))))

/-- The condition the specification gives for a line to contribute an entry: after
trimming it is non-empty, does not start with `#`, and, after an optional `export `
prefix is removed, contains an `=`. -/
def Contributes (text : Str) : Prop :=
  TrimSpace text ≠ [] ∧ ¬ "#".toList <+: TrimSpace text ∧
    '=' ∈ (if "export ".toList <+: TrimSpace text then (TrimSpace text).drop 7
      else TrimSpace text)

instance (text : Str) : Decidable (Contributes text) :=
  inferInstanceAs (Decidable
    (TrimSpace text ≠ [] ∧ ¬ "#".toList <+: TrimSpace text ∧
      '=' ∈ (if "export ".toList <+: TrimSpace text then (TrimSpace text).drop 7
        else TrimSpace text)))

/-! ## Sample inputs -/

/-- The lines of the sample file `/srv/app/.env`. -/
def sampleBaseLines : List Str := ["# base".toList, "K=base".toList, "ONLY_A=1".toList]

/-- The lines of the sample file `/srv/app/.env.dev`. -/
def sampleDevLines : List Str := ["export K=dev".toList, "".toList, "ONLY_B=\"x=y\"".toList]

/-- A sample POSIX system: three env files under `/srv/app`, a small inherited
environment, and path functions that act on plain absolute paths. -/
def sampleOS : OS where
  Open := fun path =>
    if path = "/srv/app/.env".toList then
      .ok ⟨sampleBaseLines, none⟩
    else if path = "/srv/app/.env.dev".toList then
      .ok ⟨sampleDevLines, none⟩
    else if path = "/etc/shared.env".toList then
      .ok ⟨["S=1".toList], none⟩
    else .error "no such file or directory".toList
  IsAbs := fun p => HasPrefix p "/".toList
  Join := fun a b => a ++ "/".toList ++ b
  Environ := ["HOME=/home/u".toList, "K=inherited".toList, "PATH=/bin".toList]
  Getwd := some "/srv/app/src".toList
  UserHomeDir := some "/home/u".toList
  Abs := fun p => some p
  EvalSymlinks := fun p => some p
  Separator := '/'

/-- A sample project rooted at `/srv/app`. -/
def sampleProject : Project := ⟨"/srv/app".toList, "make".toList, GoMap.empty⟩

/-- A sample environment: two project-relative files, no overrides. -/
def sampleEnv : Env := ⟨[".env".toList, ".env.dev".toList], GoMap.empty⟩

/-- A sample environment: the same two files and an override on `K`. -/
def sampleEnvOverride : Env :=
  ⟨[".env".toList, ".env.dev".toList], GoMap.empty.set "K".toList "forced".toList⟩

/-- A sample environment whose second file does not exist. -/
def sampleEnvMissing : Env :=
  ⟨[".env".toList, "missing.env".toList, "/etc/shared.env".toList],
    GoMap.empty.set "K".toList "forced".toList⟩

/-- A sample system in which every path opens as a file of the one line `KEY="a=b"`. -/
def quotedOS : OS :=
  { sampleOS with Open := fun _ => .ok ⟨["KEY=\"a=b\"".toList], none⟩ }

/-- A sample loaded map: `K` and `NEW`. -/
def sampleLoaded : GoMap Str :=
  (GoMap.empty.set "K".toList "dev".toList).set "NEW".toList "1".toList

/-- The sample system with another working directory. -/
def osAt (cwd : Str) : OS := { sampleOS with Getwd := some cwd }

/-- The project `app`, rooted at `/home/u/app`. -/
def appProject : Project := ⟨"/home/u/app".toList, [], GoMap.empty⟩

/-- A configuration whose only project is `app`. -/
def appCfg : Config := ⟨GoMap.empty.set "app".toList appProject⟩

/-- A project rooted at the filesystem root. -/
def rootProject : Project := ⟨"/".toList, [], GoMap.empty⟩

/-- A configuration whose only project is `sys`, rooted at `/`. -/
def rootCfg : Config := ⟨GoMap.empty.set "sys".toList rootProject⟩

/-- The lines of a sample file that assigns `K` twice. -/
def repeatLines : List Str := ["K=1".toList, "X=2".toList, " K = 3 ".toList]

/-- A sample system in which every path opens as the file of `repeatLines`. -/
def repeatOS : OS := { sampleOS with Open := fun _ => .ok ⟨repeatLines, none⟩ }

/-- The map `LoadEnv` returns for `sampleEnvOverride` on the sample system. -/
def sampleResult : GoMap Str :=
  ((GoMap.empty.assignAll (parseLines sampleBaseLines).entries).assignAll
    (parseLines sampleDevLines).entries).assignAll sampleEnvOverride.Overrides.entries

/-- A sample environment with no files and an override whose key is `A=B`. -/
def eqKeyEnv : Env := ⟨[], GoMap.empty.set "A=B".toList "1".toList⟩

/-- The project `app` with an environment `dev` that has no files and no overrides. -/
def appWithDev : Project :=
  ⟨"/home/u/app".toList, [], GoMap.empty.set "dev".toList ⟨[], GoMap.empty⟩⟩

/-- A project that happens to be called `dev`, rooted at `/srv/dev`. -/
def devProject : Project := ⟨"/srv/dev".toList, [], GoMap.empty⟩

/-- A configuration with the projects `app` and `dev`. -/
def twoCfg : Config :=
  ⟨(GoMap.empty.set "app".toList appWithDev).set "dev".toList devProject⟩

/-- A configuration whose only project has the empty name and is rooted at `/home/u/app`. -/
def namelessCfg : Config := ⟨GoMap.empty.set [] appProject⟩

/-! ## Lemmas on trimming and splitting -/

theorem dropWhile_append_of_all {α : Type} (p : α → Bool) (a l : List α)
    (ha : ∀ y ∈ a, p y = true) : (a ++ l).dropWhile p = l.dropWhile p := by
  induction a with
  | nil => rfl
  | cons x t ih =>
    have hx : p x = true := ha x (List.mem_cons_self x t)
    rw [List.cons_append, List.dropWhile_cons, hx]
    exact ih (fun y hy => ha y (List.mem_cons_of_mem x hy))

theorem dropWhile_append_neg {α : Type} (p : α → Bool) (a r : List α) (x : α)
    (hx : p x = false) : (a ++ x :: r).dropWhile p = a.dropWhile p ++ x :: r := by
  induction a with
  | nil => simp only [List.nil_append, List.dropWhile_cons, hx, List.dropWhile_nil]; rfl
  | cons y t ih =>
    rw [List.cons_append, List.dropWhile_cons, List.dropWhile_cons]
    cases hy : p y with
    | true => simpa using ih
    | false => rfl

theorem rdropWhile_append_of_all {α : Type} (p : α → Bool) (l b : List α)
    (hb : ∀ y ∈ b, p y = true) : (l ++ b).rdropWhile p = l.rdropWhile p := by
  unfold List.rdropWhile
  rw [List.reverse_append, dropWhile_append_of_all p b.reverse l.reverse
    (fun y hy => hb y (List.mem_reverse.1 hy))]

theorem rdropWhile_append_neg {α : Type} (p : α → Bool) (a r : List α) (x : α)
    (hx : p x = false) : (a ++ x :: r).rdropWhile p = a ++ x :: r.rdropWhile p := by
  unfold List.rdropWhile
  rw [List.reverse_append, List.reverse_cons, List.append_assoc, List.singleton_append,
    dropWhile_append_neg p r.reverse a.reverse x hx]
  simp

/-- A list is white space throughout, or splits at its first character that is not. -/
theorem all_or_first_neg {α : Type} (p : α → Bool) (s : List α) :
    (∀ y ∈ s, p y = true) ∨
      ∃ (a r : List α) (x : α), s = a ++ x :: r ∧ (∀ y ∈ a, p y = true) ∧ p x = false := by
  induction s with
  | nil => exact Or.inl (fun y hy => absurd hy (List.not_mem_nil y))
  | cons x t ih =>
    cases hx : p x with
    | false => exact Or.inr ⟨[], t, x, rfl, fun y hy => absurd hy (List.not_mem_nil y), hx⟩
    | true =>
      rcases ih with hall | ⟨a, r, z, hs, ha, hz⟩
      · left
        intro y hy
        rcases List.mem_cons.1 hy with h | h
        · rw [h]; exact hx
        · exact hall y h
      · right
        refine ⟨x :: a, r, z, by rw [hs]; rfl, ?_, hz⟩
        intro y hy
        rcases List.mem_cons.1 hy with h | h
        · rw [h]; exact hx
        · exact ha y h

/-- A list is white space throughout, or splits at its last character that is not. -/
theorem all_or_last_neg {α : Type} (p : α → Bool) (s : List α) :
    (∀ y ∈ s, p y = true) ∨
      ∃ (r b : List α) (x : α), s = r ++ x :: b ∧ (∀ y ∈ b, p y = true) ∧ p x = false := by
  rcases all_or_first_neg p s.reverse with hall | ⟨a, r, x, hs, ha, hx⟩
  · exact Or.inl (fun y hy => hall y (List.mem_reverse.2 hy))
  · right
    refine ⟨r.reverse, a.reverse, x, ?_, fun y hy => ha y (List.mem_reverse.1 hy), hx⟩
    have h := congrArg List.reverse hs
    simpa using h

theorem TrimSpace_around (X Y : Str) (c : Char) (hc : IsSpace c = false) :
    TrimSpace (X ++ c :: Y) = X.dropWhile IsSpace ++ c :: Y.rdropWhile IsSpace := by
  unfold TrimSpace
  rw [dropWhile_append_neg IsSpace X Y c hc, rdropWhile_append_neg IsSpace _ Y c hc]

theorem TrimSpace_of_all (s : Str) (hs : AllSpace s) : TrimSpace s = [] := by
  unfold TrimSpace
  have h : s.dropWhile IsSpace = [] := by
    have := dropWhile_append_of_all IsSpace s [] hs
    simpa using this
  rw [h]
  rfl

theorem TrimSpace_pad (a s b : Str) (ha : AllSpace a) (hb : AllSpace b) :
    TrimSpace (a ++ s ++ b) = TrimSpace s := by
  rcases all_or_first_neg IsSpace s with hall | ⟨s1, r, x, hs, hs1, hx⟩
  · rw [TrimSpace_of_all s hall]
    apply TrimSpace_of_all
    intro c hc
    rcases List.mem_append.1 hc with h | h
    · rcases List.mem_append.1 h with h | h
      · exact ha c h
      · exact hall c h
    · exact hb c h
  · have e1 : a ++ s ++ b = (a ++ s1) ++ x :: (r ++ b) := by rw [hs]; simp
    have e2 : s = s1 ++ x :: r := hs
    rw [e1, TrimSpace_around _ _ x hx, e2, TrimSpace_around _ _ x hx,
      rdropWhile_append_of_all IsSpace r b hb, dropWhile_append_of_all IsSpace a s1 ha]

theorem TrimSpace_eq_self (s : Str) (hs : NoSurroundingSpace s) : TrimSpace s = s := by
  rcases all_or_last_neg IsSpace s with hall | ⟨r, b, x, hsplit, hb, hx⟩
  · cases s with
    | nil => rfl
    | cons c t =>
      have h1 := hs.1 c rfl
      have h2 := hall c (List.mem_cons_self c t)
      rw [h1] at h2
      cases h2
  · cases b with
    | nil =>
      cases r with
      | nil => rw [hsplit, TrimSpace_around [] [] x hx]; rfl
      | cons c t =>
        have h1 : IsSpace c = false := hs.1 c (by rw [hsplit]; rfl)
        rw [hsplit]
        have e : (c :: t) ++ [x] = [] ++ c :: (t ++ [x]) := rfl
        rw [e, TrimSpace_around [] (t ++ [x]) c h1]
        have e2 : t ++ [x] = t ++ x :: [] := rfl
        rw [e2, rdropWhile_append_neg IsSpace t [] x hx]
        rfl
    | cons c t =>
      exfalso
      have hlast : s.getLast? = some ((c :: t).getLast (List.cons_ne_nil c t)) := by
        rw [hsplit, List.getLast?_append, List.getLast?_cons_cons,
          List.getLast?_eq_getLast (c :: t) (List.cons_ne_nil c t)]
        rfl
      have h1 := hs.2 _ hlast
      have h2 := hb _ (List.getLast_mem (List.cons_ne_nil c t))
      rw [h1] at h2
      cases h2

theorem TrimSpace_dropWhile (X : Str) : TrimSpace (X.dropWhile IsSpace) = TrimSpace X := by
  have h := TrimSpace_pad (X.takeWhile IsSpace) (X.dropWhile IsSpace) []
    (fun c hc => List.mem_takeWhile_imp hc) (fun c hc => absurd hc (List.not_mem_nil c))
  rw [List.append_nil, List.takeWhile_append_dropWhile] at h
  exact h.symm

theorem TrimSpace_rdropWhile (Y : Str) : TrimSpace (Y.rdropWhile IsSpace) = TrimSpace Y := by
  rcases all_or_last_neg IsSpace Y with hall | ⟨r, b, x, hsplit, hb, hx⟩
  · rw [List.rdropWhile_eq_nil_iff.2 hall, TrimSpace_of_all Y hall]
    rfl
  · have hb0 : b.rdropWhile IsSpace = [] := List.rdropWhile_eq_nil_iff.2 hb
    rw [hsplit, rdropWhile_append_neg IsSpace r b x hx, hb0]
    have h := TrimSpace_pad [] (r ++ [x]) b (fun c hc => absurd hc (List.not_mem_nil c)) hb
    rw [List.nil_append, List.append_assoc] at h
    exact h.symm

theorem mem_TrimSpace_iff (s : Str) (c : Char) (hc : IsSpace c = false) :
    c ∈ TrimSpace s ↔ c ∈ s := by
  constructor
  · intro h
    unfold TrimSpace at h
    exact (List.dropWhile_suffix IsSpace).subset
      ((List.rdropWhile_prefix IsSpace _).subset h)
  · intro h
    obtain ⟨X, Y, hXY⟩ := List.append_of_mem h
    rw [hXY, TrimSpace_around X Y c hc]
    simp

theorem SplitN2_of_not_mem (s : Str) (c : Char) (h : c ∉ s) : SplitN2 s c = [s] := by
  have hall : ∀ y ∈ s, (fun d : Char => d != c) y = true := by
    intro y hy
    have : y ≠ c := fun e => h (e ▸ hy)
    simpa using this
  have h0 : s.dropWhile (fun d : Char => d != c) = [] := by
    have := dropWhile_append_of_all (fun d : Char => d != c) s [] hall
    simpa using this
  simp only [SplitN2, h0]

theorem SplitN2_append_cons (X Y : Str) (c : Char) (h : c ∉ X) :
    SplitN2 (X ++ c :: Y) c = [X, Y] := by
  have hall : ∀ y ∈ X, (fun d : Char => d != c) y = true := by
    intro y hy
    have : y ≠ c := fun e => h (e ▸ hy)
    simpa using this
  have h0 : (X ++ c :: Y).dropWhile (fun d : Char => d != c) = c :: Y := by
    rw [dropWhile_append_of_all _ X (c :: Y) hall, List.dropWhile_cons]
    simp
  have h1 : (X ++ c :: Y).takeWhile (fun d : Char => d != c) = X := by
    have hsplit := List.takeWhile_append_dropWhile (fun d : Char => d != c) (X ++ c :: Y)
    rw [h0] at hsplit
    exact List.append_cancel_right hsplit
  simp only [SplitN2, h0, h1]

/-- A string with an `=` splits at its first `=`. -/
theorem exists_first_eq (s : Str) (c : Char) (h : c ∈ s) :
    ∃ X Y : Str, s = X ++ c :: Y ∧ c ∉ X := by
  rcases all_or_first_neg (fun d : Char => d != c) s with hall | ⟨a, r, x, hs, ha, hx⟩
  · exfalso
    have := hall c h
    simp at this
  · have hxc : x = c := by simpa using hx
    subst hxc
    refine ⟨a, r, hs, fun hmem => ?_⟩
    have := ha x hmem
    simp at this

theorem stripQuotes_wrapped (q : Char) (inner : Str) (hq : q = '"' ∨ q = '\'') :
    stripQuotes (q :: (inner ++ [q])) = inner := by
  have hlen : (q :: (inner ++ [q])).length = inner.length + 2 := by simp
  have hlast : (q :: (inner ++ [q])).get? (inner.length + 2 - 1) = some q := by
    have h := List.getLast?_eq_getElem? (q :: (inner ++ [q]))
    rw [hlen] at h
    rw [List.get?_eq_getElem?, ← h]
    have e : q :: (inner ++ [q]) = (q :: inner) ++ [q] := rfl
    rw [e, List.getLast?_concat]
  have hfirst : (q :: (inner ++ [q])).get? 0 = some q := rfl
  have hslice : slice (q :: (inner ++ [q])) 1 (inner.length + 2 - 1) = inner := by
    unfold slice
    have e : inner.length + 2 - 1 = inner.length + 1 := rfl
    rw [e, List.take_succ_cons, List.drop_succ_cons, List.drop_zero]
    simp
  unfold stripQuotes
  rw [hlen, hlast, hfirst, hslice]
  have h2 : inner.length + 2 ≥ 2 := Nat.le_add_left 2 inner.length
  rw [if_pos h2]
  rcases hq with h | h
  · subst h
    simp
  · subst h
    simp

theorem Quoted_iff_wrapped (s : Str) :
    Quoted s ↔ ∃ (q : Char) (inner : Str), (q = '"' ∨ q = '\'') ∧ s = q :: (inner ++ [q]) := by
  constructor
  · rintro ⟨hlen, hq⟩
    have key : ∀ q : Char, s.head? = some q → s.getLast? = some q →
        ∃ inner : Str, s = q :: (inner ++ [q]) := by
      intro q hh hl
      obtain ⟨t, ht⟩ := List.head?_eq_some_iff.1 hh
      obtain ⟨u, hu⟩ := List.getLast?_eq_some_iff.1 hl
      cases u with
      | nil =>
        rw [hu] at hlen
        simp at hlen
      | cons c u' =>
        rw [hu] at ht
        simp only [List.cons_append, List.cons.injEq] at ht
        refine ⟨u', ?_⟩
        rw [hu, ht.1]
        rfl
    rcases hq with ⟨h1, h2⟩ | ⟨h1, h2⟩
    · obtain ⟨inner, hi⟩ := key _ h1 h2
      exact ⟨_, inner, Or.inl rfl, hi⟩
    · obtain ⟨inner, hi⟩ := key _ h1 h2
      exact ⟨_, inner, Or.inr rfl, hi⟩
  · rintro ⟨q, inner, hq, hs⟩
    have hlast : s.getLast? = some q := by
      have e : q :: (inner ++ [q]) = (q :: inner) ++ [q] := rfl
      rw [hs, e, List.getLast?_concat]
    refine ⟨by rw [hs]; simp, ?_⟩
    rcases hq with h | h
    · subst h
      exact Or.inl ⟨by rw [hs]; rfl, hlast⟩
    · subst h
      exact Or.inr ⟨by rw [hs]; rfl, hlast⟩

theorem stripQuotes_of_quoted (s : Str) (h : Quoted s) : stripQuotes s = s.tail.dropLast := by
  obtain ⟨q, inner, hq, hs⟩ := (Quoted_iff_wrapped s).1 h
  rw [hs, stripQuotes_wrapped q inner hq]
  simp

theorem stripQuotes_of_not_quoted (s : Str) (h : ¬ Quoted s) : stripQuotes s = s := by
  unfold stripQuotes
  by_cases hlen : s.length ≥ 2
  · rw [if_pos hlen]
    have h0 : s.get? 0 = s.head? := by
      cases s <;> rfl
    have h1 : s.get? (s.length - 1) = s.getLast? := by
      rw [List.get?_eq_getElem?, ← List.getLast?_eq_getElem?]
    rw [h0, h1]
    have hn : ¬ ((s.head? = some '"' ∧ s.getLast? = some '"') ∨
        (s.head? = some '\'' ∧ s.getLast? = some '\'')) := fun hq => h ⟨hlen, hq⟩
    rw [if_neg hn]
  · rw [if_neg hlen]

/-! ## Lemmas on the line parser -/

theorem HasPrefix_iff (s pre : Str) : HasPrefix s pre = true ↔ pre <+: s := by
  unfold HasPrefix
  exact List.isPrefixOf_iff_prefix

theorem not_mem_of_AllSpace (w : Str) (c : Char) (hw : AllSpace w) (hc : IsSpace c = false) :
    c ∉ w := by
  intro h
  have := hw c h
  rw [hc] at this
  cases this

/-- A prefix of `X ++ c :: Y` that does not contain `c` is a prefix of `X`. -/
theorem prefix_of_prefix_append_cons (pre X Y : Str) (c : Char) (hc : c ∉ pre)
    (h : pre <+: X ++ c :: Y) : pre <+: X := by
  rcases List.prefix_or_prefix_of_prefix h (List.prefix_append X (c :: Y)) with h1 | h1
  · exact h1
  · obtain ⟨R, hR⟩ := h1
    rw [← hR] at h
    have h2 : R <+: c :: Y := (List.prefix_append_right_inj X).1 h
    cases R with
    | nil =>
      rw [List.append_nil] at hR
      rw [hR]
    | cons d R' =>
      exfalso
      obtain ⟨t, ht⟩ := h2
      simp only [List.cons_append, List.cons.injEq] at ht
      apply hc
      rw [← hR, ht.1]
      simp

theorem splitLine_skip (text : Str)
    (h : TrimSpace text = [] ∨ "#".toList <+: TrimSpace text) : splitLine text = none := by
  have h' : TrimSpace text = [] ∨ HasPrefix (TrimSpace text) "#".toList = true := by
    rcases h with h | h
    · exact Or.inl h
    · exact Or.inr ((HasPrefix_iff _ _).2 h)
  simp only [splitLine, if_pos h']

theorem splitLine_plain (text X Y : Str) (ht : TrimSpace text = X ++ '=' :: Y) (hX : '=' ∉ X)
    (hc : ¬ "#".toList <+: TrimSpace text) (he : ¬ "export ".toList <+: TrimSpace text) :
    splitLine text = some (TrimSpace X, TrimSpace Y) := by
  have h1 : ¬ (TrimSpace text = [] ∨ HasPrefix (TrimSpace text) "#".toList = true) := by
    rintro (h | h)
    · rw [ht] at h
      simp at h
    · exact hc ((HasPrefix_iff _ _).1 h)
  have h2 : ¬ HasPrefix (TrimSpace text) "export ".toList = true :=
    fun h => he ((HasPrefix_iff _ _).1 h)
  rw [ht] at h1 h2
  simp only [splitLine, ht, if_neg h1, if_neg h2, SplitN2_append_cons X Y '=' hX]

theorem splitLine_plain_none (text : Str) (hX : '=' ∉ TrimSpace text)
    (he : ¬ "export ".toList <+: TrimSpace text) : splitLine text = none := by
  have h2 : ¬ HasPrefix (TrimSpace text) "export ".toList = true :=
    fun h => he ((HasPrefix_iff _ _).1 h)
  unfold splitLine
  simp only [if_neg h2, SplitN2_of_not_mem _ '=' hX]
  split <;> rfl

theorem export_facts (Z : Str) :
    ¬ ("export ".toList ++ Z = [] ∨ HasPrefix ("export ".toList ++ Z) "#".toList = true) ∧
      HasPrefix ("export ".toList ++ Z) "export ".toList = true ∧
      TrimPrefix ("export ".toList ++ Z) "export ".toList = Z := by
  have hp : HasPrefix ("export ".toList ++ Z) "export ".toList = true :=
    (HasPrefix_iff _ _).2 (List.prefix_append _ _)
  refine ⟨?_, hp, ?_⟩
  · rintro (h | h)
    · simp at h
    · have h' := (HasPrefix_iff _ _).1 h
      obtain ⟨t, ht⟩ := h'
      simp at ht
  · unfold TrimPrefix
    rw [if_pos hp]
    exact List.drop_left' rfl

theorem splitLine_export (text X Y : Str)
    (ht : TrimSpace text = "export ".toList ++ (X ++ '=' :: Y)) (hX : '=' ∉ X) :
    splitLine text = some (TrimSpace X, TrimSpace Y) := by
  obtain ⟨h1, h2, h3⟩ := export_facts (X ++ '=' :: Y)
  have hX' : '=' ∉ X.dropWhile IsSpace := fun h => hX ((List.dropWhile_suffix IsSpace).subset h)
  simp only [splitLine, ht, if_neg h1, h2, if_true, h3,
    TrimSpace_around X Y '=' (by decide), SplitN2_append_cons _ _ '=' hX',
    TrimSpace_dropWhile, TrimSpace_rdropWhile]

theorem splitLine_export_none (text Z : Str)
    (ht : TrimSpace text = "export ".toList ++ Z) (hZ : '=' ∉ Z) : splitLine text = none := by
  obtain ⟨h1, h2, h3⟩ := export_facts Z
  have hZ' : '=' ∉ TrimSpace Z := fun h => hZ ((mem_TrimSpace_iff Z '=' (by decide)).1 h)
  unfold splitLine
  simp only [ht, if_neg h1, h2, if_true, h3, SplitN2_of_not_mem _ '=' hZ']

theorem parseLine_of_splitLine (text key raw : Str) (h : splitLine text = some (key, raw)) :
    parseLine text = some (key, stripQuotes raw) := by
  simp only [parseLine, h]

theorem parseLine_isSome_iff_splitLine (text : Str) :
    (parseLine text).isSome = (splitLine text).isSome := by
  unfold parseLine
  cases splitLine text with
  | none => rfl
  | some kv => rfl

theorem splitLine_isSome_iff (text : Str) : (splitLine text).isSome = true ↔ Contributes text := by
  unfold Contributes
  by_cases h0 : TrimSpace text = [] ∨ "#".toList <+: TrimSpace text
  · rw [splitLine_skip text h0]
    simp only [Option.isSome_none, Bool.false_eq_true, false_iff]
    rintro ⟨h1, h2, _⟩
    rcases h0 with h | h
    · exact h1 h
    · exact h2 h
  · have h1 : TrimSpace text ≠ [] := fun h => h0 (Or.inl h)
    have h2 : ¬ "#".toList <+: TrimSpace text := fun h => h0 (Or.inr h)
    by_cases he : "export ".toList <+: TrimSpace text
    · obtain ⟨Z, hZ⟩ := he
      have hpre : "export ".toList <+: TrimSpace text := ⟨Z, hZ⟩
      have hdrop : (TrimSpace text).drop 7 = Z := by
        rw [← hZ]
        exact List.drop_left' rfl
      rw [if_pos hpre, hdrop]
      by_cases hmem : '=' ∈ Z
      · obtain ⟨X, Y, hXY, hX⟩ := exists_first_eq Z '=' hmem
        rw [splitLine_export text X Y (by rw [← hZ, hXY]) hX]
        simp only [Option.isSome_some, true_iff]
        exact ⟨h1, h2, hmem⟩
      · rw [splitLine_export_none text Z hZ.symm hmem]
        simp only [Option.isSome_none, Bool.false_eq_true, false_iff]
        exact fun h => hmem h.2.2
    · rw [if_neg he]
      by_cases hmem : '=' ∈ TrimSpace text
      · obtain ⟨X, Y, hXY, hX⟩ := exists_first_eq (TrimSpace text) '=' hmem
        rw [splitLine_plain text X Y hXY hX h2 he]
        simp only [Option.isSome_some, true_iff]
        exact ⟨h1, h2, hmem⟩
      · rw [splitLine_plain_none text hmem he]
        simp only [Option.isSome_none, Bool.false_eq_true, false_iff]
        exact fun h => hmem h.2.2

/-! ## Lemmas on Go maps -/

theorem lookupEntries_eq_none {α : Type} (l : List (Str × α)) (k : Str) :
    lookupEntries l k = none ↔ k ∉ l.map Prod.fst := by
  induction l with
  | nil => simp only [lookupEntries, List.map_nil, List.not_mem_nil, not_false_eq_true]
  | cons e t ih =>
    obtain ⟨k', v'⟩ := e
    by_cases h : k' = k
    · simp only [lookupEntries, h, if_true, List.map_cons, List.mem_cons, true_or,
        not_true_eq_false, reduceCtorEq]
    · have h' : ¬ k = k' := fun hk => h hk.symm
      simp only [lookupEntries, h, if_false, ih, List.map_cons, List.mem_cons, h', false_or]

theorem lookupEntries_setEntries_self {α : Type} (l : List (Str × α)) (k : Str) (v : α) :
    lookupEntries (setEntries l k v) k = some v := by
  induction l with
  | nil => simp only [setEntries, lookupEntries, if_true]
  | cons e t ih =>
    obtain ⟨k', v'⟩ := e
    by_cases h : k' = k
    · simp only [setEntries, lookupEntries, h, if_true]
    · simp only [setEntries, lookupEntries, h, if_false, ih]

theorem lookupEntries_setEntries_ne {α : Type} (l : List (Str × α)) (k x : Str) (v : α)
    (hx : k ≠ x) : lookupEntries (setEntries l k v) x = lookupEntries l x := by
  induction l with
  | nil => simp only [setEntries, lookupEntries, hx, if_false]
  | cons e t ih =>
    obtain ⟨k', v'⟩ := e
    by_cases h : k' = k
    · subst h
      simp only [setEntries, lookupEntries, hx, if_true, if_false]
    · by_cases h2 : k' = x
      · subst h2
        simp only [setEntries, lookupEntries, h, if_false, if_true]
      · simp only [setEntries, lookupEntries, h, h2, if_false, ih]

theorem GoMap.get_set_self {α : Type} (m : GoMap α) (k : Str) (v : α) :
    (m.set k v).get k = some v :=
  lookupEntries_setEntries_self m.entries k v

theorem GoMap.get_set_ne {α : Type} (m : GoMap α) (k x : Str) (v : α) (hx : k ≠ x) :
    (m.set k v).get x = m.get x :=
  lookupEntries_setEntries_ne m.entries k x v hx

theorem GoMap.get_empty {α : Type} (k : Str) : (GoMap.empty : GoMap α).get k = none := rfl

/-- Assigning every entry of a list with distinct keys: the list's value wins, and a
key the list lacks keeps its value. -/
theorem GoMap.get_assignAll {α : Type} (src : List (Str × α))
    (hsrc : (src.map Prod.fst).Nodup) (dst : GoMap α) (k : Str) :
    (dst.assignAll src).get k =
      match lookupEntries src k with
      | some v => some v
      | none => dst.get k := by
  induction src generalizing dst with
  | nil => simp [GoMap.assignAll, lookupEntries]
  | cons e t ih =>
    obtain ⟨k', v'⟩ := e
    simp only [List.map_cons, List.nodup_cons] at hsrc
    have step : (dst.assignAll ((k', v') :: t)) = (dst.set k' v').assignAll t := rfl
    rw [step, ih hsrc.2]
    by_cases h : k' = k
    · subst h
      have hnone : lookupEntries t k' = none := (lookupEntries_eq_none t k').2 hsrc.1
      simp [lookupEntries, hnone, GoMap.get_set_self]
    · simp [lookupEntries, h, GoMap.get_set_ne _ _ _ _ h]

theorem GoMap.get_assignAll_of_get {α : Type} (src dst : GoMap α) (k : Str) (v : α)
    (h : src.get k = some v) : (dst.assignAll src.entries).get k = some v := by
  rw [GoMap.get_assignAll src.entries src.nodup]
  have h' : lookupEntries src.entries k = some v := h
  simp [h']

theorem GoMap.get_assignAll_of_not {α : Type} (src dst : GoMap α) (k : Str)
    (h : src.get k = none) : (dst.assignAll src.entries).get k = dst.get k := by
  rw [GoMap.get_assignAll src.entries src.nodup]
  have h' : lookupEntries src.entries k = none := h
  simp [h']

theorem GoMap.mem_entries_of_get {α : Type} (m : GoMap α) (k : Str) (v : α)
    (h : m.get k = some v) : (k, v) ∈ m.entries := by
  obtain ⟨l, hl⟩ := m
  simp only [GoMap.get] at h
  show (k, v) ∈ l
  clear hl
  induction l with
  | nil => simp [lookupEntries] at h
  | cons e t ih =>
    obtain ⟨k', v'⟩ := e
    by_cases hk : k' = k
    · simp [lookupEntries, hk] at h
      simp [hk, h]
    · simp [lookupEntries, hk] at h
      exact List.mem_cons_of_mem _ (ih h)

theorem GoMap.get_of_mem_entries {α : Type} (m : GoMap α) (k : Str) (v : α)
    (h : (k, v) ∈ m.entries) : m.get k = some v := by
  obtain ⟨l, hl⟩ := m
  simp only [GoMap.get]
  simp only at h
  induction l with
  | nil => simp at h
  | cons e t ih =>
    obtain ⟨k', v'⟩ := e
    simp only [List.map_cons, List.nodup_cons] at hl
    rcases List.mem_cons.1 h with h1 | h1
    · cases h1
      simp [lookupEntries]
    · have hne : k' ≠ k := by
        intro hk
        apply hl.1
        rw [hk]
        exact List.mem_map_of_mem Prod.fst h1
      simp [lookupEntries, hne, ih hl.2 h1]

/-! ## The environment loader -/

theorem parseEnvFile_ok_or_error (os : OS) (path : Str) :
    (∃ m, parseEnvFile os path = (some m, none)) ∨
      (∃ vars err, parseEnvFile os path = (vars, some err)) := by
  unfold parseEnvFile
  cases hopen : os.Open path with
  | error e => exact Or.inr ⟨none, e, rfl⟩
  | ok sc =>
    cases herr : sc.err with
    | none => exact Or.inl ⟨parseLines sc.lines, by simp only [herr]⟩
    | some e => exact Or.inr ⟨some (parseLines sc.lines), e, by simp only [herr]⟩

theorem loadFiles_cons_ok (os : OS) (project : Project) (f : Str) (rest : List Str)
    (acc m : GoMap Str) (hf : Loads os project f m) :
    loadFiles os project (f :: rest) acc =
      (resolveFile os project f :: (loadFiles os project rest (acc.assignAll m.entries)).1,
        (loadFiles os project rest (acc.assignAll m.entries)).2) := by
  unfold Loads at hf
  simp only [loadFiles, hf]

theorem loadFiles_cons_error (os : OS) (project : Project) (f : Str) (rest : List Str)
    (acc : GoMap Str) (err : Str) (hf : FailsWith os project f err) :
    loadFiles os project (f :: rest) acc =
      ([resolveFile os project f], .error (loadError (resolveFile os project f) err)) := by
  unfold FailsWith at hf
  rcases hp : parseEnvFile os (resolveFile os project f) with ⟨vars, e⟩
  rw [hp] at hf
  simp only at hf
  subst hf
  simp only [loadFiles, hp]

/-- While the files load, the loop of `LoadEnv` walks on: after a prefix of loadable
files the loop continues on the rest with some accumulator. -/
theorem loadFiles_append_ok (os : OS) (project : Project) (pre : List Str)
    (hpre : ∀ g ∈ pre, ∃ mg, Loads os project g mg) (acc : GoMap Str) :
    ∃ mid : GoMap Str, ∀ rest : List Str,
      loadFiles os project (pre ++ rest) acc =
        (pre.map (resolveFile os project) ++ (loadFiles os project rest mid).1,
          (loadFiles os project rest mid).2) := by
  induction pre generalizing acc with
  | nil => exact ⟨acc, fun rest => rfl⟩
  | cons g t ih =>
    obtain ⟨mg, hg⟩ := hpre g (List.mem_cons_self g t)
    obtain ⟨mid, hmid⟩ := ih (fun x hx => hpre x (List.mem_cons_of_mem g hx))
      (acc.assignAll mg.entries)
    refine ⟨mid, fun rest => ?_⟩
    rw [List.cons_append, loadFiles_cons_ok os project g (t ++ rest) acc mg hg, hmid rest]
    rfl

/-- Files that load and do not define `K` leave the accumulator's value of `K` alone. -/
theorem loadFiles_keeps (os : OS) (project : Project) (K : Str) (post : List Str)
    (hpost : ∀ g ∈ post, ∃ mg, Loads os project g mg ∧ mg.get K = none) (acc : GoMap Str) :
    ∃ result : GoMap Str,
      loadFiles os project post acc = (post.map (resolveFile os project), .ok result) ∧
        result.get K = acc.get K := by
  induction post generalizing acc with
  | nil => exact ⟨acc, rfl, rfl⟩
  | cons g t ih =>
    obtain ⟨mg, hg, hgK⟩ := hpost g (List.mem_cons_self g t)
    obtain ⟨result, hres, hK⟩ := ih (fun x hx => hpost x (List.mem_cons_of_mem g hx))
      (acc.assignAll mg.entries)
    refine ⟨result, ?_, ?_⟩
    · rw [loadFiles_cons_ok os project g t acc mg hg, hres]
      rfl
    · rw [hK, GoMap.get_assignAll_of_not mg acc K hgK]

/-- When every file loads, the loop of `LoadEnv` ends with an accumulator. -/
theorem loadFiles_all_ok (os : OS) (project : Project) (files : List Str)
    (hall : ∀ g ∈ files, ∃ mg, Loads os project g mg) (acc : GoMap Str) :
    ∃ result : GoMap Str,
      loadFiles os project files acc = (files.map (resolveFile os project), .ok result) := by
  obtain ⟨mid, hmid⟩ := loadFiles_append_ok os project files hall acc
  refine ⟨mid, ?_⟩
  have h := hmid []
  simpa [loadFiles] using h

/-- C1. For every file list in which `f` is the last file that defines `K` (every
file loads, `f` gives `K` the value `v`, no later file defines `K`) and no override
is set on `K`, `LoadEnv` succeeds and its result maps `K` to `v`.  With the file list
`[A, B]`, both defining `K`, this is: the value of `K` is the one parsed from `B`. -/
theorem LoadEnv_last_file_wins (os : OS) (project : Project) (envCfg : Env)
    (pre post : List Str) (f : Str) (m : GoMap Str) (K v : Str)
    (hfiles : envCfg.Files = pre ++ f :: post)
    (hpre : ∀ g ∈ pre, ∃ mg, Loads os project g mg)
    (hf : Loads os project f m) (hK : m.get K = some v)
    (hpost : ∀ g ∈ post, ∃ mg, Loads os project g mg ∧ mg.get K = none)
    (hov : envCfg.Overrides.get K = none) :
    ∃ result : GoMap Str,
      LoadEnv os project envCfg = (some result, none) ∧ result.get K = some v := by
  obtain ⟨mid, hmid⟩ := loadFiles_append_ok os project pre hpre GoMap.empty
  obtain ⟨acc, hacc, haccK⟩ := loadFiles_keeps os project K post hpost (mid.assignAll m.entries)
  have hrun : loadFiles os project envCfg.Files GoMap.empty =
      (pre.map (resolveFile os project) ++
        (resolveFile os project f :: post.map (resolveFile os project)), .ok acc) := by
    rw [hfiles, hmid (f :: post), loadFiles_cons_ok os project f post mid m hf, hacc]
  refine ⟨acc.assignAll envCfg.Overrides.entries, ?_, ?_⟩
  · simp only [LoadEnv, LoadEnvTraced, hrun]
  · rw [GoMap.get_assignAll_of_not envCfg.Overrides acc K hov, haccK]
    exact GoMap.get_assignAll_of_get m mid K v hK

/-- C2. When every file of the environment loads, `LoadEnv` succeeds and its result
maps every key `K` of the override mapping to the override value, whatever the files
define for `K`. -/
theorem LoadEnv_override_wins (os : OS) (project : Project) (envCfg : Env) (K v : Str)
    (hall : ∀ g ∈ envCfg.Files, ∃ mg, Loads os project g mg)
    (hov : envCfg.Overrides.get K = some v) :
    ∃ result : GoMap Str,
      LoadEnv os project envCfg = (some result, none) ∧ result.get K = some v := by
  obtain ⟨acc, hacc⟩ := loadFiles_all_ok os project envCfg.Files hall GoMap.empty
  refine ⟨acc.assignAll envCfg.Overrides.entries, ?_, ?_⟩
  · simp only [LoadEnv, LoadEnvTraced, hacc]
  · exact GoMap.get_assignAll_of_get envCfg.Overrides acc K v hov

/-- C1 on the sample files: `.env` and `.env.dev` both define `K`, and the loaded value
is the one of `.env.dev`, the later file. -/
theorem LoadEnv_last_file_wins_witness :
    Loads sampleOS sampleProject ".env".toList (parseLines sampleBaseLines) ∧
      (parseLines sampleBaseLines).get "K".toList = some "base".toList ∧
      Loads sampleOS sampleProject ".env.dev".toList (parseLines sampleDevLines) ∧
      (parseLines sampleDevLines).get "K".toList = some "dev".toList ∧
      ∃ result : GoMap Str,
        LoadEnv sampleOS sampleProject sampleEnv = (some result, none) ∧
          result.get "K".toList = some "dev".toList :=
  ⟨rfl, by decide, rfl, by decide,
    LoadEnv_last_file_wins sampleOS sampleProject sampleEnv [".env".toList] []
      ".env.dev".toList (parseLines sampleDevLines) "K".toList "dev".toList rfl
      (fun g hg => ⟨parseLines sampleBaseLines, by
        rw [List.mem_singleton] at hg
        subst hg
        rfl⟩)
      rfl (by decide) (fun g hg => absurd hg (List.not_mem_nil g)) (by decide)⟩

/-- C2 on the sample files: the override on `K` replaces the value the files give. -/
theorem LoadEnv_override_wins_witness :
    (parseLines sampleDevLines).get "K".toList = some "dev".toList ∧
      sampleEnvOverride.Overrides.get "K".toList = some "forced".toList ∧
      ∃ result : GoMap Str,
        LoadEnv sampleOS sampleProject sampleEnvOverride = (some result, none) ∧
          result.get "K".toList = some "forced".toList :=
  ⟨by decide, by decide,
    LoadEnv_override_wins sampleOS sampleProject sampleEnvOverride "K".toList "forced".toList
      (fun g hg => by
        have hg' : g = ".env".toList ∨ g = ".env.dev".toList := by
          simpa [sampleEnvOverride] using hg
        rcases hg' with h | h
        · subst h
          exact ⟨parseLines sampleBaseLines, rfl⟩
        · subst h
          exact ⟨parseLines sampleDevLines, rfl⟩)
      (by decide)⟩

/-- The first file that cannot be loaded: when some file of the list fails, the list
splits into files that load, the first failing file, and the rest. -/
theorem exists_first_failure (os : OS) (project : Project) (files : List Str)
    (hbad : ∃ g ∈ files, ∃ e, FailsWith os project g e) :
    ∃ (pre post : List Str) (f err : Str),
      files = pre ++ f :: post ∧ (∀ g ∈ pre, ∃ mg, Loads os project g mg) ∧
        FailsWith os project f err := by
  induction files with
  | nil =>
    obtain ⟨g, hg, _⟩ := hbad
    exact absurd hg (List.not_mem_nil g)
  | cons a t ih =>
    rcases parseEnvFile_ok_or_error os (resolveFile os project a) with ⟨m, hm⟩ | ⟨vars, err, herr⟩
    · have hbad' : ∃ g ∈ t, ∃ e, FailsWith os project g e := by
        obtain ⟨g, hg, e, he⟩ := hbad
        rcases List.mem_cons.1 hg with h1 | h1
        · subst h1
          unfold FailsWith at he
          rw [hm] at he
          cases he
        · exact ⟨g, h1, e, he⟩
      obtain ⟨pre, post, f, err, hsplit, hpre, hf⟩ := ih hbad'
      refine ⟨a :: pre, post, f, err, by rw [hsplit, List.cons_append], ?_, hf⟩
      intro g hg
      rcases List.mem_cons.1 hg with h1 | h1
      · subst h1
        exact ⟨m, hm⟩
      · exact hpre g h1
    · refine ⟨[], t, a, err, rfl, fun g hg => absurd hg (List.not_mem_nil g), ?_⟩
      unfold FailsWith
      rw [herr]

/-- C6. When some file of the environment cannot be loaded, the file list splits at
the first such file `f` (every file before it loads), and `LoadEnv` returns no map
together with an error that names the resolved path of `f`: the reference itself when
it is absolute, otherwise the reference joined onto the project's path.  The paths
opened are those of the files up to and including `f`; no later file is opened, and
no override is applied. -/
theorem LoadEnv_fails_at_first_unreadable (os : OS) (project : Project) (envCfg : Env)
    (hbad : ∃ g ∈ envCfg.Files, ∃ e, FailsWith os project g e) :
    ∃ (pre post : List Str) (f err : Str),
      envCfg.Files = pre ++ f :: post ∧
        (∀ g ∈ pre, ∃ mg, Loads os project g mg) ∧
        FailsWith os project f err ∧
        LoadEnv os project envCfg =
          (none, some ("failed to load env file ".toList ++ resolveFile os project f ++
            ": ".toList ++ err)) ∧
        resolveFile os project f = (if os.IsAbs f then f else os.Join project.Path f) ∧
        (LoadEnvTraced os project envCfg).1 =
          pre.map (resolveFile os project) ++ [resolveFile os project f] := by
  obtain ⟨pre, post, f, err, hsplit, hpre, hf⟩ :=
    exists_first_failure os project envCfg.Files hbad
  obtain ⟨mid, hmid⟩ := loadFiles_append_ok os project pre hpre GoMap.empty
  have hrun : loadFiles os project envCfg.Files GoMap.empty =
      (pre.map (resolveFile os project) ++ [resolveFile os project f],
        .error (loadError (resolveFile os project f) err)) := by
    rw [hsplit, hmid (f :: post), loadFiles_cons_error os project f post mid err hf]
  refine ⟨pre, post, f, err, hsplit, hpre, hf, ?_, ?_, ?_⟩
  · simp only [LoadEnv, LoadEnvTraced, hrun, loadError]
  · unfold resolveFile
    cases os.IsAbs f <;> rfl
  · simp only [LoadEnvTraced, hrun]

/-- C6 on the sample files: `missing.env` cannot be opened, the error names
`/srv/app/missing.env`, and `/etc/shared.env` after it is not opened. -/
theorem LoadEnv_fails_at_first_unreadable_witness :
    LoadEnv sampleOS sampleProject sampleEnvMissing =
        (none, some "failed to load env file /srv/app/missing.env: no such file or directory".toList) ∧
      (LoadEnvTraced sampleOS sampleProject sampleEnvMissing).1 =
        ["/srv/app/.env".toList, "/srv/app/missing.env".toList] ∧
      ∃ (pre post : List Str) (f err : Str),
        sampleEnvMissing.Files = pre ++ f :: post ∧
          (∀ g ∈ pre, ∃ mg, Loads sampleOS sampleProject g mg) ∧
          FailsWith sampleOS sampleProject f err ∧
          LoadEnv sampleOS sampleProject sampleEnvMissing =
            (none, some ("failed to load env file ".toList ++ resolveFile sampleOS sampleProject f ++
              ": ".toList ++ err)) ∧
          resolveFile sampleOS sampleProject f =
            (if sampleOS.IsAbs f then f else sampleOS.Join sampleProject.Path f) ∧
          (LoadEnvTraced sampleOS sampleProject sampleEnvMissing).1 =
            pre.map (resolveFile sampleOS sampleProject) ++ [resolveFile sampleOS sampleProject f] :=
  ⟨rfl, by decide,
    LoadEnv_fails_at_first_unreadable sampleOS sampleProject sampleEnvMissing
      ⟨"missing.env".toList, by decide, "no such file or directory".toList, by
        unfold FailsWith
        decide⟩⟩

/-! ## The environment builder -/

theorem recordEntry_get_self (existing : GoMap Str) (e X w : Str)
    (he : SplitN2 e '=' = [X, w]) : (recordEntry existing e).get X = some w := by
  simp only [recordEntry, he]
  exact GoMap.get_set_self existing X w

theorem recordEntry_get_other (existing : GoMap Str) (e X : Str)
    (he : ∀ w, SplitN2 e '=' ≠ [X, w]) : (recordEntry existing e).get X = existing.get X := by
  unfold recordEntry
  split
  · next p0 p1 hp =>
    have hne : p0 ≠ X := by
      intro h
      subst h
      exact he p1 hp
    exact GoMap.get_set_ne existing p0 X p1 hne
  · rfl

theorem foldl_recordEntry_get_other (post : List Str) (X : Str)
    (hpost : ∀ e ∈ post, ∀ w, SplitN2 e '=' ≠ [X, w]) (acc : GoMap Str) :
    (post.foldl recordEntry acc).get X = acc.get X := by
  induction post generalizing acc with
  | nil => rfl
  | cons e t ih =>
    rw [List.foldl_cons, ih (fun x hx => hpost x (List.mem_cons_of_mem e hx)),
      recordEntry_get_other acc e X (hpost e (List.mem_cons_self e t))]

theorem mem_BuildEnv_of_get (os : OS) (loaded : GoMap Str) (k v : Str)
    (h : (mergedEnv os loaded).get k = some v) : k ++ "=".toList ++ v ∈ BuildEnv os loaded := by
  unfold BuildEnv
  exact List.mem_map.2 ⟨(k, v), GoMap.mem_entries_of_get _ k v h, rfl⟩

theorem SplitN2_eq_pair (e p0 p1 : Str) (h : SplitN2 e '=' = [p0, p1]) :
    '=' ∉ p0 ∧ e = p0 ++ '=' :: p1 := by
  by_cases hmem : '=' ∈ e
  · obtain ⟨X, Y, hXY, hX⟩ := exists_first_eq e '=' hmem
    rw [hXY, SplitN2_append_cons X Y '=' hX] at h
    simp only [List.cons.injEq, and_true] at h
    rw [← h.1, ← h.2]
    exact ⟨hX, hXY⟩
  · rw [SplitN2_of_not_mem e '=' hmem] at h
    simp at h

theorem GoMap.get_set_cases {α : Type} (m : GoMap α) (k x : Str) (v w : α)
    (h : (m.set k v).get x = some w) : x = k ∨ m.get x = some w := by
  by_cases hk : k = x
  · exact Or.inl hk.symm
  · rw [GoMap.get_set_ne m k x v hk] at h
    exact Or.inr h

theorem GoMap.get_assignAll_cases {α : Type} (src dst : GoMap α) (k : Str) (w : α)
    (h : (dst.assignAll src.entries).get k = some w) : src.get k = some w ∨ dst.get k = some w := by
  cases hs : src.get k with
  | none =>
    rw [GoMap.get_assignAll_of_not src dst k hs] at h
    exact Or.inr h
  | some v =>
    rw [GoMap.get_assignAll_of_get src dst k v hs] at h
    exact Or.inl h

theorem foldl_recordEntry_keys (entries : List Str) (acc : GoMap Str)
    (hacc : ∀ k w, acc.get k = some w → '=' ∉ k) :
    ∀ k w, (entries.foldl recordEntry acc).get k = some w → '=' ∉ k := by
  induction entries generalizing acc with
  | nil => exact hacc
  | cons e t ih =>
    rw [List.foldl_cons]
    apply ih
    intro k w hk
    unfold recordEntry at hk
    split at hk
    · next p0 p1 hp =>
      rcases GoMap.get_set_cases acc p0 k p1 w hk with h | h
      · rw [h]
        exact (SplitN2_eq_pair e p0 p1 hp).1
      · exact hacc k w h
    · exact hacc k w hk

/-- When no loaded key contains an `=`, no key of the merged map does. -/
theorem mergedEnv_keys (os : OS) (loaded : GoMap Str)
    (hloaded : ∀ k v, loaded.get k = some v → '=' ∉ k) :
    ∀ k w, (mergedEnv os loaded).get k = some w → '=' ∉ k := by
  intro k w h
  rcases GoMap.get_assignAll_cases loaded (inheritedEnv os) k w h with h1 | h1
  · exact hloaded k w h1
  · exact foldl_recordEntry_keys os.Environ GoMap.empty
      (fun k w hk => by rw [GoMap.get_empty] at hk; cases hk) k w h1

/-- When no two inherited entries share a key, the map of the inherited environment holds,
for every entry that splits at its first `=`, the value of that entry under its key. -/
theorem inheritedEnv_get_of_distinct (os : OS) (hdistinct : EnvironDistinct os)
    (e X w : Str) (he : e ∈ os.Environ) (hsplit : SplitN2 e '=' = [X, w]) :
    (inheritedEnv os).get X = some w := by
  obtain ⟨pre, post, henv⟩ := List.append_of_mem he
  have hkey : entryKey e = some X := by simp only [entryKey, hsplit]
  have hpost : ∀ e' ∈ post, ∀ w', SplitN2 e' '=' ≠ [X, w'] := by
    intro e' he' w' hsplit'
    have hkey' : entryKey e' = some X := by simp only [entryKey, hsplit']
    unfold EnvironDistinct at hdistinct
    rw [henv, List.filterMap_append, List.filterMap_cons, hkey] at hdistinct
    have hnd := (List.nodup_append.1 hdistinct).2.1
    have hX : X ∉ post.filterMap entryKey := (List.nodup_cons.1 hnd).1
    exact hX (List.mem_filterMap.2 ⟨e', he', hkey'⟩)
  unfold inheritedEnv
  rw [henv, List.foldl_append, List.foldl_cons, foldl_recordEntry_get_other post X hpost]
  exact recordEntry_get_self _ e X w hsplit

/-- A project returned by the loop of `DetectProject` is one of the projects visited, has
a non-empty normalised root, and that root equals the working directory or is followed
in it by the separator. -/
theorem detectLoop_sound (os : OS) (cwd : Str) (l : List (Str × Project)) (name : Str)
    (p : Project) (h : detectLoop os cwd l = (name, some p)) :
    (name, p) ∈ l ∧ NormalizePath os p.Path ≠ [] ∧
      (cwd = NormalizePath os p.Path ∨ NormalizePath os p.Path ++ [os.Separator] <+: cwd) := by
  induction l with
  | nil => simp [detectLoop] at h
  | cons e t ih =>
    obtain ⟨n', p'⟩ := e
    unfold detectLoop at h
    simp only at h
    by_cases h1 : NormalizePath os p'.Path = []
    · rw [if_pos h1] at h
      exact ⟨List.mem_cons_of_mem _ (ih h).1, (ih h).2⟩
    · rw [if_neg h1] at h
      by_cases h2 : cwd = NormalizePath os p'.Path ∨
          HasPrefix cwd (NormalizePath os p'.Path ++ [os.Separator]) = true
      · rw [if_pos h2] at h
        simp only [Prod.mk.injEq, Option.some.injEq] at h
        obtain ⟨hn, hp⟩ := h
        subst hn
        subst hp
        refine ⟨List.mem_cons_self _ _, h1, ?_⟩
        rcases h2 with h2 | h2
        · exact Or.inl h2
        · exact Or.inr ((HasPrefix_iff _ _).1 h2)
      · rw [if_neg h2] at h
        exact ⟨List.mem_cons_of_mem _ (ih h).1, (ih h).2⟩

/-- When a visited project has a non-empty normalised root that equals the working
directory or is followed in it by the separator, the loop of `DetectProject` returns a
project. -/
theorem detectLoop_complete (os : OS) (cwd : Str) (l : List (Str × Project)) (name : Str)
    (p : Project) (hmem : (name, p) ∈ l) (hroot : NormalizePath os p.Path ≠ [])
    (hmatch : cwd = NormalizePath os p.Path ∨ NormalizePath os p.Path ++ [os.Separator] <+: cwd) :
    ∃ (n' : Str) (p' : Project), detectLoop os cwd l = (n', some p') := by
  induction l with
  | nil => exact absurd hmem (List.not_mem_nil _)
  | cons e t ih =>
    obtain ⟨n0, p0⟩ := e
    unfold detectLoop
    simp only
    by_cases h1 : NormalizePath os p0.Path = []
    · rw [if_pos h1]
      rcases List.mem_cons.1 hmem with h | h
      · cases h
        exact absurd h1 hroot
      · exact ih h
    · rw [if_neg h1]
      by_cases h2 : cwd = NormalizePath os p0.Path ∨
          HasPrefix cwd (NormalizePath os p0.Path ++ [os.Separator]) = true
      · rw [if_pos h2]
        exact ⟨n0, p0, rfl⟩
      · rw [if_neg h2]
        rcases List.mem_cons.1 hmem with h | h
        · cases h
          exfalso
          apply h2
          rcases hmatch with hm | hm
          · exact Or.inl hm
          · exact Or.inr ((HasPrefix_iff _ _).2 hm)
        · exact ih h

/-- C4. `DetectProject` returns a project only if the working directory is known, the
project is a configured one, its normalised root is non-empty, and the normalised
working directory equals that root or begins with the root followed by the path
separator. -/
theorem DetectProject_sound (os : OS) (cfg : Config) (name : Str) (p : Project)
    (h : DetectProject os cfg = (name, some p)) :
    ∃ cwd : Str, os.Getwd = some cwd ∧ (name, p) ∈ cfg.Projects.entries ∧
      NormalizePath os p.Path ≠ [] ∧
      (NormalizePath os cwd = NormalizePath os p.Path ∨
        NormalizePath os p.Path ++ [os.Separator] <+: NormalizePath os cwd) := by
  unfold DetectProject at h
  cases hwd : os.Getwd with
  | none =>
    rw [hwd] at h
    simp at h
  | some cwd =>
    rw [hwd] at h
    exact ⟨cwd, rfl, detectLoop_sound os (NormalizePath os cwd) cfg.Projects.entries name p h⟩

/-- C4 on the sample configuration: from `/home/u/app/src` the project `app` is detected,
from `/home/u/app2`, which has the root as a plain string prefix, nothing is. -/
theorem DetectProject_sound_witness :
    DetectProject (osAt "/home/u/app/src".toList) appCfg = ("app".toList, some appProject) ∧
      DetectProject (osAt "/home/u/app2".toList) appCfg = ([], none) ∧
      "/home/u/app".toList <+: "/home/u/app2".toList ∧
      ∃ cwd : Str, (osAt "/home/u/app/src".toList).Getwd = some cwd ∧
        ("app".toList, appProject) ∈ appCfg.Projects.entries ∧
        NormalizePath (osAt "/home/u/app/src".toList) appProject.Path ≠ [] ∧
        (NormalizePath (osAt "/home/u/app/src".toList) cwd =
            NormalizePath (osAt "/home/u/app/src".toList) appProject.Path ∨
          NormalizePath (osAt "/home/u/app/src".toList) appProject.Path ++
            [(osAt "/home/u/app/src".toList).Separator] <+:
              NormalizePath (osAt "/home/u/app/src".toList) cwd) :=
  ⟨rfl, rfl, by decide,
    DetectProject_sound (osAt "/home/u/app/src".toList) appCfg "app".toList appProject rfl⟩

/-- C5, the failing input. With the single project `sys` rooted at `/` and the working
directory `/home`, both normalised to themselves, the root is non-empty and an ancestor
of the working directory, yet `DetectProject` returns the empty name and no project:
the prefix it looks for is the root followed by the separator, `//`. -/
theorem DetectProject_root_project_undetected :
    NormalizePath (osAt "/home".toList) rootProject.Path = "/".toList ∧
      NormalizePath (osAt "/home".toList) "/home".toList = "/home".toList ∧
      rootCfg.Projects.entries = [("sys".toList, rootProject)] ∧
      NormalizePath (osAt "/home".toList) rootProject.Path ++ [(osAt "/home".toList).Separator] =
        "//".toList ∧
      DetectProject (osAt "/home".toList) rootCfg = ([], none) :=
  ⟨by decide, by decide, rfl, by decide, rfl⟩

/-! ## The env-file parser -/

/-- C7. For every key `k` that is non-empty, has no `=`, has no surrounding white space
and starts neither with `#` nor with `export `, and every value `v` (with or without
surrounding white space, with or without `=` characters), the line `k="v"` parses to
the key `k` and the value `v`, and a file of that single line parses, without error, to
the map whose only entry is `k: v`. -/
theorem parseEnvFile_quoted_value (os : OS) (path k v : Str)
    (hopen : os.Open path = .ok ⟨[k ++ ['=', '"'] ++ v ++ ['"']], none⟩)
    (hk0 : k ≠ []) (hkeq : '=' ∉ k) (hks : NoSurroundingSpace k)
    (hkc : ¬ "#".toList <+: k) (hke : ¬ "export ".toList <+: k) :
    parseLine (k ++ ['=', '"'] ++ v ++ ['"']) = some (k, v) ∧
      ∃ m : GoMap Str, parseEnvFile os path = (some m, none) ∧ m.entries = [(k, v)] := by
  have hform : k ++ ['=', '"'] ++ v ++ ['"'] = k ++ '=' :: ('"' :: (v ++ ['"'])) := by simp
  have hq : NoSurroundingSpace ('"' :: (v ++ ['"'])) := by
    constructor
    · intro c hc
      cases hc
      decide
    · intro c hc
      have e : '"' :: (v ++ ['"']) = ('"' :: v) ++ ['"'] := rfl
      rw [e, List.getLast?_concat] at hc
      cases hc
      decide
  have hdrop : k.dropWhile IsSpace = k := by
    cases k with
    | nil => rfl
    | cons c t =>
      have h1 : IsSpace c = false := hks.1 c rfl
      rw [List.dropWhile_cons, h1]
      rfl
  have hrdrop : ('"' :: (v ++ ['"'])).rdropWhile IsSpace = '"' :: (v ++ ['"']) := by
    have e : '"' :: (v ++ ['"']) = ('"' :: v) ++ ['"'] := rfl
    rw [e]
    exact List.rdropWhile_concat_neg IsSpace _ '"' (by decide)
  have htrim : TrimSpace (k ++ '=' :: ('"' :: (v ++ ['"']))) = k ++ '=' :: ('"' :: (v ++ ['"'])) := by
    rw [TrimSpace_around k _ '=' (by decide), hdrop, hrdrop]
  have hc : ¬ "#".toList <+: TrimSpace (k ++ '=' :: ('"' :: (v ++ ['"']))) := by
    rw [htrim]
    exact fun h => hkc (prefix_of_prefix_append_cons _ k _ '=' (by decide) h)
  have he : ¬ "export ".toList <+: TrimSpace (k ++ '=' :: ('"' :: (v ++ ['"']))) := by
    rw [htrim]
    exact fun h => hke (prefix_of_prefix_append_cons _ k _ '=' (by decide) h)
  have hsplit := splitLine_plain _ k ('"' :: (v ++ ['"'])) htrim hkeq hc he
  rw [TrimSpace_eq_self k hks, TrimSpace_eq_self _ hq] at hsplit
  have hline : parseLine (k ++ ['=', '"'] ++ v ++ ['"']) = some (k, v) := by
    rw [hform, parseLine_of_splitLine _ _ _ hsplit, stripQuotes_wrapped '"' v (Or.inl rfl)]
  refine ⟨hline, GoMap.empty.set k v, ?_, rfl⟩
  simp only [parseEnvFile, hopen, parseLines, List.foldl_cons, List.foldl_nil, storeLine, hline]

/-- C7 on the line `KEY="a=b"`. -/
theorem parseEnvFile_quoted_value_witness :
    parseLine "KEY=\"a=b\"".toList = some ("KEY".toList, "a=b".toList) ∧
      ∃ m : GoMap Str, parseEnvFile quotedOS "/srv/app/.env".toList = (some m, none) ∧
        m.entries = [("KEY".toList, "a=b".toList)] :=
  parseEnvFile_quoted_value quotedOS "/srv/app/.env".toList "KEY".toList "a=b".toList rfl
    (by decide) (by decide) (by decide) (by decide) (by decide)

/-- C8. For every line that reaches the split, with trimmed key `key` and trimmed raw
value `raw`: if `raw` has at least 2 characters and its first and last characters are both
the double quote or both the single quote, the stored value is `raw` without its first and
its last character; otherwise the stored value is `raw` unchanged. -/
theorem parseLine_quote_removal (text key raw : Str) (h : splitLine text = some (key, raw)) :
    (Quoted raw → parseLine text = some (key, raw.tail.dropLast)) ∧
      (¬ Quoted raw → parseLine text = some (key, raw)) := by
  rw [parseLine_of_splitLine text key raw h]
  constructor
  · intro hq
    rw [stripQuotes_of_quoted raw hq]
  · intro hq
    rw [stripQuotes_of_not_quoted raw hq]

/-- C8 on sample lines: one layer of quotes is removed, inner quotes, white space and
backslashes stay, and a lone or a mismatched quote is left alone. -/
theorem parseLine_quote_removal_witness :
    (splitLine "K= \"\"a\"\" ".toList = some ("K".toList, "\"\"a\"\"".toList) ∧
        parseLine "K= \"\"a\"\" ".toList = some ("K".toList, "\"a\"".toList)) ∧
      parseLine "K=\"".toList = some ("K".toList, "\"".toList) ∧
      parseLine "K=\"a'".toList = some ("K".toList, "\"a'".toList) ∧
      parseLine "K=' a\\n '".toList = some ("K".toList, " a\\n ".toList) :=
  ⟨⟨by decide,
      (parseLine_quote_removal "K= \"\"a\"\" ".toList "K".toList "\"\"a\"\"".toList
        (by decide)).1 (by decide)⟩,
    (parseLine_quote_removal "K=\"".toList "K".toList "\"".toList (by decide)).2 (by decide),
    (parseLine_quote_removal "K=\"a'".toList "K".toList "\"a'".toList (by decide)).2 (by decide),
    (parseLine_quote_removal "K=' a\\n '".toList "K".toList "' a\\n '".toList
      (by decide)).1 (by decide)⟩

/-- C9. For every line made of white space `w1`, the prefix `export `, white space `w2`, a
key without `=` and without surrounding white space, white space `w3`, an `=`, white space
`w4`, a value without surrounding white space that is not wrapped in quotes, and white
space `w5`, the parser yields exactly that key and that value. -/
theorem parseLine_export_line (w1 w2 w3 w4 w5 key value : Str)
    (h1 : AllSpace w1) (h2 : AllSpace w2) (h3 : AllSpace w3) (h4 : AllSpace w4)
    (h5 : AllSpace w5) (hkeq : '=' ∉ key) (hks : NoSurroundingSpace key)
    (hvs : NoSurroundingSpace value) (hvq : ¬ Quoted value) :
    parseLine (w1 ++ "export ".toList ++ w2 ++ key ++ w3 ++ "=".toList ++ w4 ++ value ++ w5) =
      some (key, value) := by
  have hform : w1 ++ "export ".toList ++ w2 ++ key ++ w3 ++ "=".toList ++ w4 ++ value ++ w5 =
      (w1 ++ ("export ".toList ++ (w2 ++ key ++ w3))) ++ '=' :: (w4 ++ value ++ w5) := by
    simp
  have hdrop : (w1 ++ ("export ".toList ++ (w2 ++ key ++ w3))).dropWhile IsSpace =
      "export ".toList ++ (w2 ++ key ++ w3) := by
    rw [dropWhile_append_of_all IsSpace w1 _ h1]
    rfl
  have htrim : TrimSpace
      (w1 ++ "export ".toList ++ w2 ++ key ++ w3 ++ "=".toList ++ w4 ++ value ++ w5) =
      "export ".toList ++
        ((w2 ++ key ++ w3) ++ '=' :: (w4 ++ value ++ w5).rdropWhile IsSpace) := by
    rw [hform, TrimSpace_around _ _ '=' (by decide), hdrop, List.append_assoc]
  have hX : '=' ∉ w2 ++ key ++ w3 := by
    intro h
    rcases List.mem_append.1 h with h | h
    · rcases List.mem_append.1 h with h | h
      · exact not_mem_of_AllSpace w2 '=' h2 (by decide) h
      · exact hkeq h
    · exact not_mem_of_AllSpace w3 '=' h3 (by decide) h
  have hsplit := splitLine_export _ (w2 ++ key ++ w3) ((w4 ++ value ++ w5).rdropWhile IsSpace)
    htrim hX
  rw [TrimSpace_rdropWhile, TrimSpace_pad w2 key w3 h2 h3, TrimSpace_pad w4 value w5 h4 h5,
    TrimSpace_eq_self key hks, TrimSpace_eq_self value hvs] at hsplit
  rw [parseLine_of_splitLine _ _ _ hsplit, stripQuotes_of_not_quoted value hvq]

/-- C9 on sample lines with white space at every permitted place. -/
theorem parseLine_export_line_witness :
    parseLine " \texport   FOO=bar  ".toList = some ("FOO".toList, "bar".toList) ∧
      parseLine "export K = v w\t".toList = some ("K".toList, "v w".toList) :=
  ⟨parseLine_export_line " \t".toList "  ".toList [] [] "  ".toList "FOO".toList "bar".toList
      (by decide) (by decide) (by decide) (by decide) (by decide) (by decide) (by decide)
      (by decide) (by decide),
    parseLine_export_line [] [] " ".toList " ".toList "\t".toList "K".toList "v w".toList
      (by decide) (by decide) (by decide) (by decide) (by decide) (by decide) (by decide)
      (by decide) (by decide)⟩

theorem storeLine_of_contributes (result : GoMap Str) (text : Str) (h : Contributes text) :
    ∃ key value : Str, parseLine text = some (key, value) ∧
      storeLine result text = result.set key value := by
  have hsome : (parseLine text).isSome = true := by
    rw [parseLine_isSome_iff_splitLine]
    exact (splitLine_isSome_iff text).2 h
  obtain ⟨kv, hkv⟩ := Option.isSome_iff_exists.1 hsome
  obtain ⟨key, value⟩ := kv
  refine ⟨key, value, hkv, ?_⟩
  simp only [storeLine, hkv]

theorem storeLine_of_not_contributes (result : GoMap Str) (text : Str) (h : ¬ Contributes text) :
    parseLine text = none ∧ storeLine result text = result := by
  have hnone : parseLine text = none := by
    cases hp : parseLine text with
    | none => rfl
    | some kv =>
      exfalso
      apply h
      apply (splitLine_isSome_iff text).1
      rw [← parseLine_isSome_iff_splitLine, hp]
      rfl
  refine ⟨hnone, ?_⟩
  simp only [storeLine, hnone]

/-- The keys of the map after the scanning loop: those of the map before it and those
stored by the lines. -/
theorem foldl_storeLine_isSome (lines : List Str) (acc : GoMap Str) (k : Str) :
    ((lines.foldl storeLine acc).get k).isSome = true ↔
      (acc.get k).isSome = true ∨ ∃ text ∈ lines, ∃ v, parseLine text = some (k, v) := by
  induction lines generalizing acc with
  | nil => simp
  | cons text t ih =>
    rw [List.foldl_cons, ih]
    have hstep : ((storeLine acc text).get k).isSome = true ↔
        (acc.get k).isSome = true ∨ ∃ v, parseLine text = some (k, v) := by
      unfold storeLine
      cases hp : parseLine text with
      | none => simp
      | some kv =>
        obtain ⟨key, value⟩ := kv
        by_cases hk : key = k
        · subst hk
          simp [GoMap.get_set_self]
        · have hk' : ¬ (key = k ∧ ∃ v, value = v) := fun h => hk h.1
          simp [GoMap.get_set_ne acc key k value hk, hk]
    rw [hstep]
    constructor
    · rintro ((h | ⟨v, hv⟩) | ⟨x, hx, v, hv⟩)
      · exact Or.inl h
      · exact Or.inr ⟨text, List.mem_cons_self text t, v, hv⟩
      · exact Or.inr ⟨x, List.mem_cons_of_mem text hx, v, hv⟩
    · rintro (h | ⟨x, hx, v, hv⟩)
      · exact Or.inl (Or.inl h)
      · rcases List.mem_cons.1 hx with h | h
        · subst h
          exact Or.inl (Or.inr ⟨v, hv⟩)
        · exact Or.inr ⟨x, h, v, hv⟩

/-- C10. A line stores an entry exactly when, after trimming, it is non-empty, does not
start with `#`, and, once an optional `export ` prefix is removed, contains an `=`: such a
line assigns its key in the map, any other line leaves the map as it is, the keys of the
parsed map are the keys of such lines, and the parser adds no error of its own to that of
the scanner.  The line `FOO=` stores `FOO` with the empty string, and a `#` after the `=`
stays in the value. -/
theorem parseLine_contributes_iff :
    (∀ text : Str, (parseLine text).isSome = true ↔ Contributes text) ∧
    (∀ (result : GoMap Str) (text : Str), Contributes text →
      ∃ key value : Str, parseLine text = some (key, value) ∧
        storeLine result text = result.set key value) ∧
    (∀ (result : GoMap Str) (text : Str), ¬ Contributes text → storeLine result text = result) ∧
    (∀ (lines : List Str) (k : Str), ((parseLines lines).get k).isSome = true ↔
      ∃ text ∈ lines, Contributes text ∧ ∃ v, parseLine text = some (k, v)) ∧
    (∀ (os : OS) (path : Str) (sc : Scanned), os.Open path = .ok sc →
      parseEnvFile os path = (some (parseLines sc.lines), sc.err)) ∧
    parseLine "FOO=".toList = some ("FOO".toList, []) ∧
    parseLine "KEY4=bare value   # NOTE".toList =
      some ("KEY4".toList, "bare value   # NOTE".toList) ∧
    parseLine "# FOO=1".toList = none ∧ parseLine "FOO".toList = none ∧
    parseLine "   ".toList = none := by
  refine ⟨?_, storeLine_of_contributes, fun result text h =>
    (storeLine_of_not_contributes result text h).2, ?_, ?_, by decide, by decide, by decide,
    by decide, by decide⟩
  · intro text
    rw [parseLine_isSome_iff_splitLine]
    exact splitLine_isSome_iff text
  · intro lines k
    unfold parseLines
    rw [foldl_storeLine_isSome]
    constructor
    · rintro (h | ⟨text, ht, v, hv⟩)
      · simp [GoMap.get_empty] at h
      · refine ⟨text, ht, ?_, v, hv⟩
        apply (splitLine_isSome_iff text).1
        rw [← parseLine_isSome_iff_splitLine, hv]
        rfl
    · rintro ⟨text, ht, _, v, hv⟩
      exact Or.inr ⟨text, ht, v, hv⟩
  · intro os path sc hopen
    simp only [parseEnvFile, hopen]

theorem storeLine_get_self (acc : GoMap Str) (text k v : Str)
    (h : parseLine text = some (k, v)) : (storeLine acc text).get k = some v := by
  simp only [storeLine, h]
  exact GoMap.get_set_self acc k v

theorem storeLine_get_other (acc : GoMap Str) (text k : Str)
    (h : ∀ v', parseLine text ≠ some (k, v')) : (storeLine acc text).get k = acc.get k := by
  unfold storeLine
  cases hp : parseLine text with
  | none => rfl
  | some kv =>
    obtain ⟨key, value⟩ := kv
    have hne : key ≠ k := by
      intro hk
      subst hk
      exact h value hp
    exact GoMap.get_set_ne acc key k value hne

theorem foldl_storeLine_get_other (post : List Str) (k : Str)
    (hpost : ∀ t ∈ post, ∀ v', parseLine t ≠ some (k, v')) (acc : GoMap Str) :
    (post.foldl storeLine acc).get k = acc.get k := by
  induction post generalizing acc with
  | nil => rfl
  | cons t rest ih =>
    rw [List.foldl_cons, ih (fun x hx => hpost x (List.mem_cons_of_mem t hx)),
      storeLine_get_other acc t k (hpost t (List.mem_cons_self t rest))]

/-- In a list of entries with distinct keys, the entries under the key of a member are that
member alone. -/
theorem filter_key_eq_singleton {α : Type} (l : List (Str × α)) (k : Str) (v : α)
    (hl : (l.map Prod.fst).Nodup) (hmem : (k, v) ∈ l) :
    l.filter (fun e => decide (e.1 = k)) = [(k, v)] := by
  induction l with
  | nil => exact absurd hmem (List.not_mem_nil _)
  | cons e t ih =>
    obtain ⟨k', v'⟩ := e
    simp only [List.map_cons, List.nodup_cons] at hl
    rcases List.mem_cons.1 hmem with h | h
    · cases h
      have hrest : t.filter (fun e => decide (e.1 = k)) = [] := by
        rw [List.filter_eq_nil_iff]
        intro e he hk
        apply hl.1
        have hk' : e.1 = k := by simpa using hk
        rw [← hk']
        exact List.mem_map_of_mem Prod.fst he
      rw [List.filter_cons_of_pos (by simp), hrest]
    · have hne : k' ≠ k := by
        intro hk
        apply hl.1
        rw [hk]
        exact List.mem_map_of_mem Prod.fst h
      rw [List.filter_cons_of_neg (by simpa using hne)]
      exact ih hl.2 h

/-- C11. For every file whose lines split as `pre`, a line that yields the key `k` with
the value `v`, and lines `post` none of which yields `k`, whatever the lines of `pre`
yield: the parsed map gives `k` the value `v`, the value of the last line that yields
`k`; its entries under `k` are the one entry `(k, v)`; and no two of its entries share a
key. -/
theorem parseEnvFile_last_line_wins (os : OS) (path : Str) (sc : Scanned)
    (pre post : List Str) (text k v : Str)
    (hopen : os.Open path = .ok sc) (hlines : sc.lines = pre ++ text :: post)
    (htext : parseLine text = some (k, v))
    (hpost : ∀ t ∈ post, ∀ v', parseLine t ≠ some (k, v')) :
    ∃ m : GoMap Str, (parseEnvFile os path).1 = some m ∧ m.get k = some v ∧
      m.entries.filter (fun e => decide (e.1 = k)) = [(k, v)] ∧
      (m.entries.map Prod.fst).Nodup := by
  have hget : (parseLines sc.lines).get k = some v := by
    unfold parseLines
    rw [hlines, List.foldl_append, List.foldl_cons, foldl_storeLine_get_other post k hpost]
    exact storeLine_get_self _ text k v htext
  refine ⟨parseLines sc.lines, ?_, hget, ?_, (parseLines sc.lines).nodup⟩
  · simp only [parseEnvFile, hopen]
  · exact filter_key_eq_singleton _ k v (parseLines sc.lines).nodup
      (GoMap.mem_entries_of_get _ k v hget)

/-- C11 on a sample file: of `K=1`, `X=2`, ` K = 3 ` the map keeps `K: 3` and `X: 2`. -/
theorem parseEnvFile_last_line_wins_witness :
    parseLine "K=1".toList = some ("K".toList, "1".toList) ∧
      parseLine " K = 3 ".toList = some ("K".toList, "3".toList) ∧
      (parseLines repeatLines).entries = [("K".toList, "3".toList), ("X".toList, "2".toList)] ∧
      ∃ m : GoMap Str, (parseEnvFile repeatOS "/srv/app/.env".toList).1 = some m ∧
        m.get "K".toList = some "3".toList ∧
        m.entries.filter (fun e => decide (e.1 = "K".toList)) = [("K".toList, "3".toList)] ∧
        (m.entries.map Prod.fst).Nodup :=
  ⟨by decide, by decide, by decide,
    parseEnvFile_last_line_wins repeatOS "/srv/app/.env".toList ⟨repeatLines, none⟩
      ["K=1".toList, "X=2".toList] [] " K = 3 ".toList "K".toList "3".toList rfl rfl
      (by decide) (fun t ht => absurd ht (List.not_mem_nil t))⟩

/-! ## Keys and the `=` sign -/

theorem splitLine_key_no_eq (text k raw : Str) (h : splitLine text = some (k, raw)) :
    '=' ∉ k := by
  unfold splitLine at h
  simp only at h
  split at h
  · cases h
  · split at h
    · next p0 p1 hp =>
      simp only [Option.some.injEq, Prod.mk.injEq] at h
      rw [← h.1]
      intro hm
      exact (SplitN2_eq_pair _ p0 p1 hp).1 ((mem_TrimSpace_iff p0 '=' (by decide)).1 hm)
    · cases h

theorem parseLine_key_no_eq (text k v : Str) (h : parseLine text = some (k, v)) : '=' ∉ k := by
  unfold parseLine at h
  cases hs : splitLine text with
  | none =>
    rw [hs] at h
    cases h
  | some kv =>
    obtain ⟨key, raw⟩ := kv
    rw [hs] at h
    simp only [Option.some.injEq, Prod.mk.injEq] at h
    rw [← h.1]
    exact splitLine_key_no_eq text key raw hs

theorem parseLines_key_no_eq (lines : List Str) (k v : Str)
    (h : (parseLines lines).get k = some v) : '=' ∉ k := by
  have hsome : ((lines.foldl storeLine GoMap.empty).get k).isSome = true := by
    have h' : (lines.foldl storeLine GoMap.empty).get k = some v := h
    rw [h']
    rfl
  rcases (foldl_storeLine_isSome lines GoMap.empty k).1 hsome with h0 | ⟨text, _, v', hv'⟩
  · rw [GoMap.get_empty] at h0
    cases h0
  · exact parseLine_key_no_eq text k v' hv'

theorem parseEnvFile_key_no_eq (os : OS) (path : Str) (m : GoMap Str)
    (hm : (parseEnvFile os path).1 = some m) (k v : Str) (h : m.get k = some v) : '=' ∉ k := by
  unfold parseEnvFile at hm
  cases hopen : os.Open path with
  | error e =>
    rw [hopen] at hm
    cases hm
  | ok sc =>
    rw [hopen] at hm
    simp only [Option.some.injEq] at hm
    rw [← hm] at h
    exact parseLines_key_no_eq sc.lines k v h

/-- The loop of `LoadEnv` keeps the accumulator's keys free of `=`. -/
theorem loadFiles_key_no_eq (os : OS) (project : Project) (files : List Str)
    (acc : GoMap Str) (hacc : ∀ k v, acc.get k = some v → '=' ∉ k)
    (opened : List Str) (result : GoMap Str)
    (h : loadFiles os project files acc = (opened, .ok result)) :
    ∀ k v, result.get k = some v → '=' ∉ k := by
  induction files generalizing acc opened with
  | nil =>
    simp only [loadFiles, Prod.mk.injEq, Except.ok.injEq] at h
    rw [← h.2]
    exact hacc
  | cons f rest ih =>
    rcases parseEnvFile_ok_or_error os (resolveFile os project f) with ⟨m, hm⟩ | ⟨vars, err, herr⟩
    · rw [loadFiles_cons_ok os project f rest acc m hm] at h
      simp only [Prod.mk.injEq] at h
      refine ih (acc.assignAll m.entries) ?_ _ (Prod.ext rfl h.2)
      intro k v hk
      rcases GoMap.get_assignAll_cases m acc k v hk with h1 | h1
      · exact parseEnvFile_key_no_eq os (resolveFile os project f) m (by rw [hm]) k v h1
      · exact hacc k v h1
    · have hfail : FailsWith os project f err := by
        unfold FailsWith
        rw [herr]
      rw [loadFiles_cons_error os project f rest acc err hfail] at h
      simp only [Prod.mk.injEq] at h
      cases h.2

/-- What `LoadEnv` returns when it succeeds: the accumulator of the file loop with the
overrides assigned on top, the accumulator's keys being free of `=`. -/
theorem LoadEnv_ok_shape (os : OS) (project : Project) (envCfg : Env) (result : GoMap Str)
    (hload : LoadEnv os project envCfg = (some result, none)) :
    ∃ acc : GoMap Str, result = acc.assignAll envCfg.Overrides.entries ∧
      ∀ k v, acc.get k = some v → '=' ∉ k := by
  unfold LoadEnv LoadEnvTraced at hload
  rcases hrun : loadFiles os project envCfg.Files GoMap.empty with ⟨opened, r⟩
  rw [hrun] at hload
  cases r with
  | error e =>
    simp only [Prod.mk.injEq] at hload
    cases hload.1
  | ok acc =>
    simp only [Prod.mk.injEq, Option.some.injEq, and_true] at hload
    refine ⟨acc, hload.symm, ?_⟩
    exact loadFiles_key_no_eq os project envCfg.Files GoMap.empty
      (fun k v hk => by rw [GoMap.get_empty] at hk; cases hk) opened acc hrun

/-- When no key of `loaded` contains an `=`, every entry of `BuildEnv` is `k=w` for a key
`k` of the merged map and its value `w`, and splits at its first `=` into that key and
that value. -/
theorem BuildEnv_entries_split (os : OS) (loaded : GoMap Str)
    (hloaded : ∀ k v, loaded.get k = some v → '=' ∉ k) (e : Str) (he : e ∈ BuildEnv os loaded) :
    ∃ k w : Str, e = k ++ "=".toList ++ w ∧ SplitN2 e '=' = [k, w] ∧
      (mergedEnv os loaded).get k = some w := by
  unfold BuildEnv at he
  obtain ⟨⟨k, w⟩, hmem, hrender⟩ := List.mem_map.1 he
  have hget : (mergedEnv os loaded).get k = some w := GoMap.get_of_mem_entries _ k w hmem
  have hk : '=' ∉ k := mergedEnv_keys os loaded hloaded k w hget
  refine ⟨k, w, hrender.symm, ?_, hget⟩
  rw [← hrender]
  have e1 : k ++ "=".toList ++ w = k ++ '=' :: w := by simp
  simp only [e1]
  exact SplitN2_append_cons k w '=' hk

/-- C12, as amended. For every project and environment whose override keys are free of
`=` (whatever the files hold) and for which `LoadEnv` succeeds: every key of the result is
free of `=`, and every entry of `BuildEnv` of the result is `k=w` for a key `k` of the
merged map and its value `w`, and splits at its first `=` into exactly that key and that
value. -/
theorem LoadEnv_keys_free_of_eq (os : OS) (project : Project) (envCfg : Env)
    (result : GoMap Str)
    (hov : ∀ k v, envCfg.Overrides.get k = some v → '=' ∉ k)
    (hload : LoadEnv os project envCfg = (some result, none)) :
    (∀ k v, result.get k = some v → '=' ∉ k) ∧
      ∀ e ∈ BuildEnv os result, ∃ k w : Str, e = k ++ "=".toList ++ w ∧
        SplitN2 e '=' = [k, w] ∧ (mergedEnv os result).get k = some w := by
  obtain ⟨acc, hres, hacc⟩ := LoadEnv_ok_shape os project envCfg result hload
  have hkeys : ∀ k v, result.get k = some v → '=' ∉ k := by
    intro k v hk
    rw [hres] at hk
    rcases GoMap.get_assignAll_cases envCfg.Overrides acc k v hk with h1 | h1
    · exact hov k v h1
    · exact hacc k v h1
  exact ⟨hkeys, fun e he => BuildEnv_entries_split os result hkeys e he⟩

/-- C12 on the sample files with the override `K: forced`: the keys are `K`, `ONLY_A`,
`ONLY_B`, and every entry of the built environment splits into a merged key and its value. -/
theorem LoadEnv_keys_free_of_eq_witness :
    LoadEnv sampleOS sampleProject sampleEnvOverride = (some sampleResult, none) ∧
      sampleResult.entries = [("K".toList, "forced".toList), ("ONLY_A".toList, "1".toList),
        ("ONLY_B".toList, "x=y".toList)] ∧
      (∀ k v, sampleResult.get k = some v → '=' ∉ k) ∧
      ∀ e ∈ BuildEnv sampleOS sampleResult, ∃ k w : Str, e = k ++ "=".toList ++ w ∧
        SplitN2 e '=' = [k, w] ∧ (mergedEnv sampleOS sampleResult).get k = some w :=
  ⟨rfl, by decide,
    LoadEnv_keys_free_of_eq sampleOS sampleProject sampleEnvOverride sampleResult
      (fun k v hk => by
        have hk' : k = "K".toList := by
          by_contra hne
          have h0 : sampleEnvOverride.Overrides.get k = none :=
            (GoMap.get_set_ne GoMap.empty "K".toList k "forced".toList
              (fun h => hne h.symm)).trans (GoMap.get_empty k)
          rw [h0] at hk
          cases hk
        rw [hk']
        decide)
      rfl⟩

/-- C12, as stated, fails: with no files and the override `A=B: 1`, `LoadEnv` succeeds with
the key `A=B`, which contains an `=`, and `BuildEnv` writes the entry `A=B=1`, which splits
at its first `=` into `A` and `B=1`, where `A` is no key of the merged map. -/
theorem LoadEnv_override_key_with_eq :
    LoadEnv sampleOS sampleProject eqKeyEnv =
        (some (GoMap.empty.set "A=B".toList "1".toList), none) ∧
      (GoMap.empty.set "A=B".toList "1".toList).get "A=B".toList = some "1".toList ∧
      '=' ∈ "A=B".toList ∧
      "A=B=1".toList ∈ BuildEnv sampleOS (GoMap.empty.set "A=B".toList "1".toList) ∧
      SplitN2 "A=B=1".toList '=' = ["A".toList, "B=1".toList] ∧
      (mergedEnv sampleOS (GoMap.empty.set "A=B".toList "1".toList)).get "A".toList = none :=
  ⟨rfl, by decide, by decide, by decide, by decide, by decide⟩

/-! ## The command layer -/

theorem resolveProject_empty_of_detected (os : OS) (cfg : Config) (name : Str) (p : Project)
    (hdet : DetectProject os cfg = (name, some p)) (hname : name ≠ []) :
    resolveProject os cfg [] = .ok (name, p) := by
  simp [resolveProject, hdet, hname]

theorem resolveProject_named (os : OS) (cfg : Config) (name : Str) (q : Project)
    (hname : name ≠ []) (hq : cfg.Projects.get name = some q) :
    resolveProject os cfg name = .ok (name, q) := by
  simp [resolveProject, hname, hq]

/-- C13, as amended. For every configuration and every argument list `arg0 :: rest` of
`env get` given, with the project name omitted, from a working directory in which
`DetectProject` returns a project `p` under a non-empty name `name`: when `arg0` is not the
name of a configured project, or no argument follows it, `arg0` is taken as the environment
name of the detected project and `rest` as the keys to print; when `arg0` is the name of a
configured project `q` and `arg1 :: more` follows, `arg0` is taken as the project name,
`arg1` as the environment name and `more` as the keys, the project used being `q`, or, when
that name is the empty string, the detected `p` (`resolveProject` treats the empty name as
not given). -/
theorem envGetTarget_detected (os : OS) (cfg : Config) (arg0 : Str) (rest : List Str)
    (name : Str) (p : Project)
    (hdet : DetectProject os cfg = (name, some p)) (hname : name ≠ []) :
    (cfg.Projects.get arg0 = none ∨ rest = [] →
      envGetTarget os cfg arg0 rest = .ok ⟨name, p, arg0, rest⟩) ∧
    (∀ (q : Project) (arg1 : Str) (more : List Str),
      cfg.Projects.get arg0 = some q → rest = arg1 :: more →
      envGetTarget os cfg arg0 rest = .ok ⟨arg0, if arg0 = [] then p else q, arg1, more⟩) := by
  have hres := resolveProject_empty_of_detected os cfg name p hdet hname
  constructor
  · intro h
    rcases h with h | h
    · simp only [envGetTarget, h, Option.isSome_none, hres]
    · subst h
      cases hq : (cfg.Projects.get arg0).isSome <;> simp only [envGetTarget, hq, hres]
  · intro q arg1 more hq hrest
    subst hrest
    by_cases h0 : arg0 = []
    · subst h0
      simp only [envGetTarget, hq, Option.isSome_some, hres, if_true]
    · simp only [envGetTarget, hq, Option.isSome_some, resolveProject_named os cfg arg0 q h0 hq,
        if_neg h0]

/-- C13 on the sample configuration, from inside `app`: `env get dev` and
`env get staging DB_HOST` take the first argument as the environment name. -/
theorem envGetTarget_detected_witness :
    DetectProject (osAt "/home/u/app".toList) twoCfg = ("app".toList, some appWithDev) ∧
      envGetTarget (osAt "/home/u/app".toList) twoCfg "dev".toList [] =
        .ok ⟨"app".toList, appWithDev, "dev".toList, []⟩ ∧
      envGetTarget (osAt "/home/u/app".toList) twoCfg "staging".toList ["DB_HOST".toList] =
        .ok ⟨"app".toList, appWithDev, "staging".toList, ["DB_HOST".toList]⟩ :=
  ⟨rfl,
    (envGetTarget_detected (osAt "/home/u/app".toList) twoCfg "dev".toList []
      "app".toList appWithDev rfl (by decide)).1 (Or.inr rfl),
    (envGetTarget_detected (osAt "/home/u/app".toList) twoCfg "staging".toList
      ["DB_HOST".toList] "app".toList appWithDev rfl (by decide)).1 (Or.inl rfl)⟩

/-- C13, as stated, fails: inside the project `app`, which has the environment `dev`, with
another configured project called `dev`, the arguments `dev DB_HOST` are taken as the
project `dev` and the environment `DB_HOST`, with no keys, and the command ends with
`environment "DB_HOST" not found in project "dev"`. -/
theorem envGetTarget_env_named_like_project :
    DetectProject (osAt "/home/u/app".toList) twoCfg = ("app".toList, some appWithDev) ∧
      (appWithDev.Envs.get "dev".toList).isSome = true ∧
      envGetTarget (osAt "/home/u/app".toList) twoCfg "dev".toList ["DB_HOST".toList] =
        .ok ⟨"dev".toList, devProject, "DB_HOST".toList, []⟩ ∧
      "dev".toList ≠ "app".toList ∧ "DB_HOST".toList ≠ "dev".toList ∧
      ([] : List Str) ≠ ["DB_HOST".toList] ∧
      envGetEnv ⟨"dev".toList, devProject, "DB_HOST".toList, []⟩ =
        .error (.envNotFound "DB_HOST".toList "dev".toList) :=
  ⟨rfl, by decide, rfl, by decide, by decide, by decide, rfl⟩

theorem detectLoop_none_name (os : OS) (cwd : Str) (l : List (Str × Project))
    (h : (detectLoop os cwd l).2 = none) : (detectLoop os cwd l).1 = [] := by
  induction l with
  | nil => rfl
  | cons e t ih =>
    obtain ⟨n, p⟩ := e
    unfold detectLoop at h ⊢
    simp only at h ⊢
    split
    · next h1 =>
      rw [if_pos h1] at h
      exact ih h
    · next h1 =>
      rw [if_neg h1] at h
      split
      · next h2 =>
        rw [if_pos h2] at h
        cases h
      · next h2 =>
        rw [if_neg h2] at h
        exact ih h

/-- The function `DetectProject` returns no project exactly when no configured project
matches the working directory. -/
theorem DetectProject_none_iff (os : OS) (cfg : Config) :
    (DetectProject os cfg).2 = none ↔ ¬ SomeProjectMatches os cfg := by
  constructor
  · rintro h ⟨cwd, hwd, n, p, hmem, hroot, hmatch⟩
    obtain ⟨n', p', hdet⟩ := detectLoop_complete os (NormalizePath os cwd) cfg.Projects.entries
      n p hmem hroot hmatch
    simp only [DetectProject, hwd, hdet] at h
    cases h
  · intro h
    cases hp : (DetectProject os cfg).2 with
    | none => rfl
    | some p =>
      exfalso
      apply h
      have hdet : DetectProject os cfg = ((DetectProject os cfg).1, some p) := by
        rw [← hp]
      unfold DetectProject at hdet
      cases hwd : os.Getwd with
      | none =>
        rw [hwd] at hdet
        simp only [Prod.mk.injEq] at hdet
        cases hdet.2
      | some cwd =>
        rw [hwd] at hdet
        simp only at hdet
        obtain ⟨hmem, hroot, hmatch⟩ := detectLoop_sound os (NormalizePath os cwd)
          cfg.Projects.entries _ p hdet
        exact ⟨cwd, hwd, _, p, hmem, hroot, hmatch⟩

theorem DetectProject_name_of_none (os : OS) (cfg : Config)
    (h : (DetectProject os cfg).2 = none) : (DetectProject os cfg).1 = [] := by
  unfold DetectProject at h ⊢
  cases hwd : os.Getwd with
  | none => rfl
  | some cwd =>
    rw [hwd] at h
    simp only at h ⊢
    exact detectLoop_none_name os _ _ h

theorem DetectProject_mem (os : OS) (cfg : Config) (name : Str) (p : Project)
    (h : DetectProject os cfg = (name, some p)) : (name, p) ∈ cfg.Projects.entries := by
  unfold DetectProject at h
  cases hwd : os.Getwd with
  | none =>
    rw [hwd] at h
    simp only [Prod.mk.injEq] at h
    cases h.2
  | some cwd =>
    rw [hwd] at h
    exact (detectLoop_sound os (NormalizePath os cwd) cfg.Projects.entries name p h).1

/-- C14, as amended. For every configuration whose project names are all non-empty and
every working directory: `DetectProject` returns the empty name exactly when it returns no
project, it returns no project exactly when no configured project matches the working
directory, and `resolveProject` with an empty name fails exactly when no configured project
matches. -/
theorem DetectProject_empty_name_iff (os : OS) (cfg : Config)
    (hnames : ∀ n p, (n, p) ∈ cfg.Projects.entries → n ≠ []) :
    ((DetectProject os cfg).1 = [] ↔ (DetectProject os cfg).2 = none) ∧
    ((DetectProject os cfg).2 = none ↔ ¬ SomeProjectMatches os cfg) ∧
    ((∃ err, resolveProject os cfg [] = .error err) ↔ ¬ SomeProjectMatches os cfg) := by
  have hname : (DetectProject os cfg).1 = [] ↔ (DetectProject os cfg).2 = none := by
    constructor
    · intro h1
      cases hp : (DetectProject os cfg).2 with
      | none => rfl
      | some p =>
        exfalso
        have hdet : DetectProject os cfg = ((DetectProject os cfg).1, some p) := by
          rw [← hp]
        exact hnames _ p (DetectProject_mem os cfg _ p hdet) h1
    · exact DetectProject_name_of_none os cfg
  refine ⟨hname, DetectProject_none_iff os cfg, ?_⟩
  rw [← DetectProject_none_iff os cfg]
  rcases hdet : DetectProject os cfg with ⟨detected, p⟩
  rw [hdet] at hname
  simp only at hname ⊢
  constructor
  · rintro ⟨err, herr⟩
    by_cases h1 : detected = []
    · exact hname.1 h1
    · cases p with
      | none => rfl
      | some q =>
        simp [resolveProject, hdet, h1] at herr
  · intro hp
    have h1 : detected = [] := hname.2 hp
    exact ⟨.notDetected, by simp [resolveProject, hdet, h1]⟩

/-- C14 on the sample configuration: from `/home/u/app/src` the project `app` is returned
under its name and `resolveProject` succeeds; from `/tmp` neither. -/
theorem DetectProject_empty_name_iff_witness :
    DetectProject (osAt "/home/u/app/src".toList) appCfg = ("app".toList, some appProject) ∧
      resolveProject (osAt "/home/u/app/src".toList) appCfg [] =
        .ok ("app".toList, appProject) ∧
      DetectProject (osAt "/tmp".toList) appCfg = ([], none) ∧
      resolveProject (osAt "/tmp".toList) appCfg [] = .error .notDetected ∧
      (((DetectProject (osAt "/tmp".toList) appCfg).1 = [] ↔
          (DetectProject (osAt "/tmp".toList) appCfg).2 = none) ∧
        ((DetectProject (osAt "/tmp".toList) appCfg).2 = none ↔
          ¬ SomeProjectMatches (osAt "/tmp".toList) appCfg) ∧
        ((∃ err, resolveProject (osAt "/tmp".toList) appCfg [] = .error err) ↔
          ¬ SomeProjectMatches (osAt "/tmp".toList) appCfg)) :=
  ⟨rfl, rfl, rfl, rfl,
    DetectProject_empty_name_iff (osAt "/tmp".toList) appCfg (fun n p h => by
      have h' : (n, p) = ("app".toList, appProject) := by
        simpa [appCfg, GoMap.set, GoMap.empty, setEntries] using h
      rw [(Prod.mk.inj h').1]
      decide)⟩

/-- C14, as stated, fails: with a project whose name is the empty string, rooted at
`/home/u/app`, and the working directory `/home/u/app/src`, `DetectProject` returns that
project under the empty name, and `resolveProject` with an empty name fails with
`could not detect project` although the project matches. -/
theorem DetectProject_nameless_project :
    namelessCfg.Projects.entries = [([], appProject)] ∧
      NormalizePath (osAt "/home/u/app/src".toList) appProject.Path = "/home/u/app".toList ∧
      "/home/u/app".toList ++ ['/'] <+: "/home/u/app/src".toList ∧
      DetectProject (osAt "/home/u/app/src".toList) namelessCfg = ([], some appProject) ∧
      resolveProject (osAt "/home/u/app/src".toList) namelessCfg [] = .error .notDetected :=
  ⟨rfl, by decide, by decide, rfl, rfl⟩

end Menv
